import Mathlib

/-!
Verification of the hybrid search orchestrator (openidb/api).

This file gives a shallow embedding, in Lean 4, of the parts of the
TypeScript code base relevant to the fusion core, the multi-query
deduplication, the TTL cache, the embedding back-end retry loop, the
Arabic-text normalizer, the LLM rerankers and the search route error
mapping, together with theorems settling the specification claims about
them.

Modelling conventions:
* JavaScript numbers are modelled as exact rationals (`ℚ`); integer
  quantities as `Nat`/`Int`.
* A JavaScript `Map` is modelled as an insertion-ordered association
  list: `set` on an existing key updates the value in place, `set` on a
  fresh key appends, matching JS iteration order semantics.
* `Array.prototype.sort` is modelled as a stable insertion sort over the
  relation "comparator result ≤ 0" (ECMAScript requires a stable sort;
  for a consistent comparator every stable sort yields the same list).
* `undefined` is modelled as `Option.none`; code throwing is modelled
  with `Except`/explicit outcome types.
* External I/O (fetch responses, LLM replies) is modelled by passing the
  outcome of each call as an explicit argument.
-/

/-! ## Shared helpers: JS Map as insertion-ordered association list -/

/-- JS `Map.get`. -/
def jsMapGet {α β : Type} [DecidableEq α] : List (α × β) → α → Option β
  | [], _ => none
  | p :: rest, k => if p.1 = k then some p.2 else jsMapGet rest k

/-- JS `Map.set`: update in place if the key exists, else append. -/
def jsMapSet {α β : Type} [DecidableEq α] : List (α × β) → α → β → List (α × β)
  | [], k, v => [(k, v)]
  | p :: rest, k, v => if p.1 = k then (k, v) :: rest else p :: jsMapSet rest k v

/-- JS `Map.delete`. -/
def jsMapDelete {α β : Type} [DecidableEq α] (m : List (α × β)) (k : α) : List (α × β) :=
  m.filter (fun p => !(decide (p.1 = k)))

/-- Is `pat` a leading piece of `hay`? (helper for the substring test). -/
def strStartsWith : List Char → List Char → Bool
  | [], _ => true
  | _ :: _, [] => false
  | a :: ps, b :: hs => a = b && strStartsWith ps hs

/-- Does `hay` contain `pat` as a contiguous substring?
Models JS `String.prototype.includes`. -/
def strContainsAux (pat : List Char) : List Char → Bool
  | [] => strStartsWith pat []
  | b :: hs => strStartsWith pat (b :: hs) || strContainsAux pat hs

/-- JS `hay.includes(pat)`. -/
def strContains (hay pat : String) : Bool :=
  strContainsAux pat.data hay.data

/-! ## Fusion core — `src/routes/search/config.ts` -/

/-- `RRF_K = 60` (`config.ts`). -/
def RRF_K : ℚ := 60

/-- `SEMANTIC_WEIGHT = 0.8` (`config.ts`). -/
def SEMANTIC_WEIGHT : ℚ := 8/10

/-- `KEYWORD_WEIGHT = 0.3` (`config.ts`). -/
def KEYWORD_WEIGHT : ℚ := 3/10

/-- `FLOAT_TOLERANCE = 0.001` (`config.ts`). -/
def FLOAT_TOLERANCE : ℚ := 1/1000

/-- Modelled from the spec: the shared constant `BM25_NORM_K` is imported
by `fusion.ts` from `./config` but its definition is not in the extract;
the spec fixes it to `K' = 8`. -/
def BM25_NORM_K : ℚ := 8

/-- Modelled from the spec: `normalizeBM25Score` lives in `src/search/bm25`
which is not in the extract; the spec defines it as
`normalized_bm25(s) = s / (s + K')`. -/
def normalizeBM25Score (s k : ℚ) : ℚ := s / (s + k)

/-! ## Fusion core — `src/routes/search/fusion.ts`

All three ranked-result domains share one generic item shape in
`mergeWithRRFGeneric`; we model it by one structure carrying every field
the fusion code reads or writes.  Domain keys (`bookId-pageNumber` etc.)
are abstracted to `Nat` via the `key` field.  -/

structure MItem where
  key : Nat
  semanticRank : Option Nat
  keywordRank : Option Nat
  semanticScore : Option ℚ
  score : Option ℚ
  tsRank : Option ℚ
  bm25Score : Option ℚ
  keywordScore : Option ℚ
  textSnippet : String
  highlightedSnippet : Option String
  rrfScore : ℚ
  fusedScore : ℚ
  weightedRrfScore : ℚ
deriving DecidableEq

instance : Inhabited MItem :=
  ⟨⟨0, none, none, none, none, none, none, none, "", none, 0, 0, 0⟩⟩

/-- `calculateRRFScore` (`fusion.ts` lines 10–15): sum of `1/(RRF_K + rank)`
over the defined ranks. -/
def calculateRRFScore (ranks : List (Option Nat)) : ℚ :=
  ranks.foldl
    (fun sum rank =>
      match rank with
      | none => sum
      | some r => sum + 1 / (RRF_K + r)) 0

/-- `calculateFusedScore` (`fusion.ts` lines 22–34). -/
def calculateFusedScore (hasSemantic hasKeyword : Bool) (semanticScore : ℚ)
    (bm25Score keywordScore : Option ℚ) : ℚ :=
  if hasSemantic && hasKeyword then
    SEMANTIC_WEIGHT * semanticScore +
      KEYWORD_WEIGHT * normalizeBM25Score (bm25Score.getD 0) BM25_NORM_K
  else if hasSemantic then semanticScore
  else
    normalizeBM25Score
      (match bm25Score with
       | some b => b
       | none => match keywordScore with
         | some kw => kw
         | none => 0) BM25_NORM_K

/-- The `.map` step of `mergeWithRRFGeneric` (`fusion.ts` lines 73–84):
compute `fusedScore` and `rrfScore` from the merged entry and overwrite
`score` with the fused score. -/
def applyFusionScores (item : MItem) : MItem :=
  let fusedScore := calculateFusedScore item.semanticRank.isSome item.keywordRank.isSome
    (item.semanticScore.getD 0) item.bm25Score item.keywordScore
  let rrfScore := calculateRRFScore [item.semanticRank, item.keywordRank]
  { item with fusedScore := fusedScore, rrfScore := rrfScore, score := some fusedScore }

/-- The comparator of the final `.sort` (`fusion.ts` lines 86–90). -/
def fusionCompare (a b : MItem) : ℚ :=
  let fusedDiff := b.fusedScore - a.fusedScore
  if |fusedDiff| > FLOAT_TOLERANCE then fusedDiff else b.rrfScore - a.rrfScore

/-- `a` sorts no later than `b` under the fusion comparator. -/
def fusionLE (a b : MItem) : Prop := fusionCompare a b ≤ 0

instance : DecidableRel fusionLE :=
  fun a b => inferInstanceAs (Decidable (fusionCompare a b ≤ 0))

/-- Phase 1 of `mergeWithRRFGeneric` (lines 54–57): seed the result map
with the semantic results. -/
def fusionSeedSemantic (getKey : MItem → Nat) (semanticResults : List MItem) :
    List (Nat × MItem) :=
  semanticResults.foldl
    (fun m item =>
      jsMapSet m (getKey item) { item with rrfScore := 0, fusedScore := 0 }) []

/-- Phase 2 of `mergeWithRRFGeneric` (lines 59–71): fold the keyword
results into the map.  `getKwScore` models `opts.getKeywordScore`
(default `item.score`); `onMerge` models `opts.onMerge` acting on the
updated entry. -/
def fusionAddKeyword (getKey : MItem → Nat) (getKwScore : MItem → Option ℚ)
    (onMerge : MItem → MItem → MItem) (m : List (Nat × MItem))
    (keywordResults : List MItem) : List (Nat × MItem) :=
  keywordResults.foldl
    (fun m item =>
      match jsMapGet m (getKey item) with
      | some existing =>
        let updated := { existing with
          keywordRank := item.keywordRank
          keywordScore := getKwScore item
          tsRank := item.tsRank
          bm25Score := item.bm25Score }
        jsMapSet m (getKey item) (onMerge updated item)
      | none =>
        jsMapSet m (getKey item)
          { item with rrfScore := 0, fusedScore := 0, keywordScore := getKwScore item }) m

/-- `mergeWithRRFGeneric` (`fusion.ts` lines 41–91).  The unused `query`
parameter of the source is dropped. -/
def mergeWithRRFGeneric (semanticResults keywordResults : List MItem)
    (getKey : MItem → Nat) (getKwScore : MItem → Option ℚ)
    (onMerge : MItem → MItem → MItem) : List MItem :=
  let m1 := fusionSeedSemantic getKey semanticResults
  let m2 := fusionAddKeyword getKey getKwScore onMerge m1 keywordResults
  let merged := (m2.map Prod.snd).map applyFusionScores
  List.insertionSort fusionLE merged

/-- The book-specific `onMerge` of `mergeWithRRF` (lines 109–111). -/
def onMergeBooks (existing incoming : MItem) : MItem :=
  { existing with highlightedSnippet := incoming.highlightedSnippet }

/-- `mergeWithRRF` (`fusion.ts` lines 97–114), with the
`bookId-pageNumber` key abstracted to the `key` field. -/
def mergeWithRRF (semanticResults keywordResults : List MItem) : List MItem :=
  mergeWithRRFGeneric semanticResults keywordResults (·.key) (·.keywordScore) onMergeBooks

/-- `keepBest` (`fusion.ts` lines 134–138) specialised to a rational
field: keep the higher defined value. -/
def keepBestQ (existing incoming : Option ℚ) : Option ℚ :=
  match incoming with
  | some i =>
    match existing with
    | none => some i
    | some e => if e < i then some i else some e
  | none => existing

/-- One query-variant pass of `mergeAndDeduplicateGeneric`
(`fusion.ts` lines 150–165): walk the variant's results with their
0-based rank, accumulating `weight / (RRF_K + rank + 1)` per key. -/
def dedupQuery (getKey : MItem → Nat) (mergeBest : MItem → MItem → MItem) (weight : ℚ) :
    List MItem → Nat → List (Nat × MItem) → List (Nat × MItem)
  | [], _, m => m
  | result :: rest, rank, m =>
    let key := getKey result
    let contrib := weight / (RRF_K + rank + 1)
    let m' :=
      match jsMapGet m key with
      | some existing =>
        let e1 := { existing with weightedRrfScore := existing.weightedRrfScore + contrib }
        let e2 := { e1 with semanticScore := keepBestQ e1.semanticScore result.semanticScore }
        jsMapSet m key (mergeBest e2 result)
      | none => jsMapSet m key { result with weightedRrfScore := contrib }
    dedupQuery getKey mergeBest weight rest (rank + 1) m'

/-- Comparator relation of the dedupe `.sort` (lines 167–168):
descending `weightedRrfScore`. -/
def dedupeLE (a b : MItem) : Prop := b.weightedRrfScore ≤ a.weightedRrfScore

instance : DecidableRel dedupeLE :=
  fun a b => inferInstanceAs (Decidable (b.weightedRrfScore ≤ a.weightedRrfScore))

/-- The accumulated `merged` map over all query-variants
(`fusion.ts` lines 150–165). -/
def dedupRunAll (getKey : MItem → Nat) (mergeBest : MItem → MItem → MItem)
    (resultsPerQuery : List (List MItem × ℚ)) : List (Nat × MItem) :=
  resultsPerQuery.foldl (fun m p => dedupQuery getKey mergeBest p.2 p.1 0 m) []

/-- `mergeAndDeduplicateGeneric` (`fusion.ts` lines 143–169).
`mergeBest` models the optional `mergeBest?.(existing, result)` callback
(identity when absent). -/
def mergeAndDeduplicateGeneric (resultsPerQuery : List (List MItem × ℚ))
    (getKey : MItem → Nat) (mergeBest : MItem → MItem → MItem) : List MItem :=
  List.insertionSort dedupeLE
    ((dedupRunAll getKey mergeBest resultsPerQuery).map Prod.snd)

/-- The book `mergeBest` callback (`fusion.ts` lines 177–184). -/
def mergeBestBooks (existing incoming : MItem) : MItem :=
  let e1 :=
    match incoming.highlightedSnippet with
    | some h =>
      if h ≠ "" ∧ h ≠ incoming.textSnippet then
        { existing with highlightedSnippet := some h }
      else existing
    | none => existing
  let e2 := { e1 with keywordScore := keepBestQ e1.keywordScore incoming.keywordScore }
  let e3 := { e2 with tsRank := keepBestQ e2.tsRank incoming.tsRank }
  { e3 with bm25Score := keepBestQ e3.bm25Score incoming.bm25Score }

/-- `mergeAndDeduplicateBooks` (`fusion.ts` lines 171–186), key
abstracted to the `key` field. -/
def mergeAndDeduplicateBooks (resultsPerQuery : List (List MItem × ℚ)) : List MItem :=
  mergeAndDeduplicateGeneric resultsPerQuery (·.key) mergeBestBooks

/-- Specification-side sum: the total weighted-RRF contribution of key
`k` inside one variant list processed from 0-based rank `rank`. -/
def occSum (getKey : MItem → Nat) (k : Nat) (weight : ℚ) : List MItem → Nat → ℚ
  | [], _ => 0
  | r :: rest, rank =>
    (if getKey r = k then weight / (RRF_K + rank + 1) else 0) +
      occSum getKey k weight rest (rank + 1)

/-- Specification-side weighted RRF score of key `k` over all variants. -/
def specWeightedRRF (resultsPerQuery : List (List MItem × ℚ)) (getKey : MItem → Nat)
    (k : Nat) : ℚ :=
  (resultsPerQuery.map (fun p => occSum getKey k p.2 p.1 0)).sum

/-- Specification-side RRF score used by claim C2: the sum of
`1/(60 + r)` over the defined 1-based ranks. -/
def specRRF (semanticRank keywordRank : Option Nat) : ℚ :=
  (match semanticRank with | none => 0 | some r => 1 / (60 + (r : ℚ))) +
    (match keywordRank with | none => 0 | some r => 1 / (60 + (r : ℚ)))

/-! ## TTL cache — `src/lib/ttl-cache.ts`

The cache is generic in the value type; `Date.now()` is passed
explicitly as `now`.  The backing `Map<string, CacheEntry<T>>` is the
insertion-ordered association list of the shared helpers. -/

structure CacheEntry (V : Type) where
  value : V
  timestamp : Nat
deriving DecidableEq

structure TTLConfig where
  maxSize : Nat
  ttlMs : Nat
  evictionCount : Nat
deriving DecidableEq

/-- The `Map<string, CacheEntry<T>>` state of a `TTLCache` instance. -/
abbrev TTLState (V : Type) : Type := List (String × CacheEntry V)

/-- Relation of the eviction sort (`ttl-cache.ts` line 69):
ascending insertion timestamp. -/
def entryTsLE {V : Type} (a b : String × CacheEntry V) : Prop :=
  a.2.timestamp ≤ b.2.timestamp

instance {V : Type} : DecidableRel (entryTsLE (V := V)) :=
  fun a b => inferInstanceAs (Decidable (a.2.timestamp ≤ b.2.timestamp))

/-- `TTLCache.evict` (`ttl-cache.ts` lines 67–75): stable-sort the
entries by insertion timestamp and delete the first `evictionCount`. -/
def TTLCache.evict {V : Type} (cfg : TTLConfig) (st : TTLState V) : TTLState V :=
  let entries := List.insertionSort entryTsLE st
  let toEvict := entries.take cfg.evictionCount
  toEvict.foldl (fun s p => jsMapDelete s p.1) st

/-- `TTLCache.set` (`ttl-cache.ts` lines 46–49). -/
def TTLCache.set {V : Type} (cfg : TTLConfig) (st : TTLState V) (now : Nat) (key : String)
    (value : V) : TTLState V :=
  let st1 := if st.length ≥ cfg.maxSize then TTLCache.evict cfg st else st
  jsMapSet st1 key { value := value, timestamp := now }

/-- `TTLCache.get` (`ttl-cache.ts` lines 20–28): returns the value (if
fresh) together with the possibly-updated state (an expired entry is
deleted). -/
def TTLCache.get {V : Type} (cfg : TTLConfig) (st : TTLState V) (now : Nat) (key : String) :
    Option V × TTLState V :=
  match jsMapGet st key with
  | none => (none, st)
  | some entry =>
    if now - entry.timestamp > cfg.ttlMs then (none, jsMapDelete st key)
    else (some entry.value, st)

/-- Apply a sequence of `set(k, v)` operations, each stamped with its
own `Date.now()` value. -/
def TTLCache.applySets {V : Type} (cfg : TTLConfig) :
    List (Nat × String × V) → TTLState V → TTLState V
  | [], st => st
  | (now, key, value) :: rest, st =>
    TTLCache.applySets cfg rest (TTLCache.set cfg st now key value)

/-! ## Embedding back-end retry loop — `src/embeddings/jina.ts`

`callJinaAPI` is modelled as a function of the sequence of per-attempt
outcomes.  Attempt `i` is described by its duration and the HTTP
response it would produce; the `AbortController` timer cancels the fetch
when the attempt's own duration reaches `timeoutMs`. -/

structure JinaAttempt where
  durationMs : Nat
  status : Nat
  data : List (Nat × List ℚ)
deriving DecidableEq

inductive JinaOutcome
  | abortError
  | apiError (status : Nat)
  | maxRetriesError
  | success (embeddings : List (List ℚ))
deriving DecidableEq

/-- ECMAScript `Response.ok`: status in the range 200–299. -/
def jsResponseOk (status : Nat) : Bool := 200 ≤ status && status ≤ 299

/-- Relation of `data.data.sort((a, b) => a.index - b.index)`
(`jina.ts` line 87). -/
def idxLE (a b : Nat × List ℚ) : Prop := a.1 ≤ b.1

instance : DecidableRel idxLE := fun a b => inferInstanceAs (Decidable (a.1 ≤ b.1))

/-- The retry loop of `callJinaAPI` (`jina.ts` lines 52–92).  Returns
the outcome together with the list of back-off waits performed (one per
retry, in order).  `fuel` counts the remaining loop iterations; the
source loop runs `attempt = 0 .. maxRetries`. -/
def callJinaAux (attempts : Nat → JinaAttempt) (timeoutMs maxRetries : Nat) :
    Nat → Nat → JinaOutcome × List Nat
  | 0, _ => (.maxRetriesError, [])
  | fuel + 1, attempt =>
    let a := attempts attempt
    if timeoutMs ≤ a.durationMs then (.abortError, [])
    else if a.status = 429 ∧ attempt < maxRetries then
      let waitMs := min (3000 * 2 ^ attempt) 60000
      let rest := callJinaAux attempts timeoutMs maxRetries fuel (attempt + 1)
      (rest.1, waitMs :: rest.2)
    else if !jsResponseOk a.status then (.apiError a.status, [])
    else (.success ((List.insertionSort idxLE a.data).map Prod.snd), [])

/-- `callJinaAPI` with explicit `timeoutMs`/`maxRetries` parameters. -/
def callJinaAPI (attempts : Nat → JinaAttempt) (timeoutMs maxRetries : Nat) :
    JinaOutcome × List Nat :=
  callJinaAux attempts timeoutMs maxRetries (maxRetries + 1) 0

/-- `callJinaAPI` at its default parameters (`timeoutMs = 15000`,
`maxRetries = 8`). -/
def callJina (attempts : Nat → JinaAttempt) : JinaOutcome × List Nat :=
  callJinaAPI attempts 15000 8

/-! ## Arabic text normalizer — `src/utils/paragraphs.ts` (`normalizeArabicText`)

Each `.replace` chain link is modelled as a `List Char` transform on
`String.data`. -/

/-- Codepoints matched by `/[ً-ٰٟ]/` (tashkeel). -/
def isArabicDiacritic (c : Char) : Bool :=
  (0x64B ≤ c.toNat && c.toNat ≤ 0x65F) || c.toNat = 0x670

/-- Codepoints matched by `/[آأإٱ]/` (alef variants). -/
def isAlefVariant (c : Char) : Bool :=
  c.toNat = 0x622 || c.toNat = 0x623 || c.toNat = 0x625 || c.toNat = 0x671

/-- The ECMAScript `\s` class (WhiteSpace ∪ LineTerminator), which is
also the set removed by `String.prototype.trim`. -/
def isJsWs (c : Char) : Bool :=
  c.toNat = 0x9 || c.toNat = 0xA || c.toNat = 0xB || c.toNat = 0xC || c.toNat = 0xD ||
  c.toNat = 0x20 || c.toNat = 0xA0 || c.toNat = 0x1680 ||
  (0x2000 ≤ c.toNat && c.toNat ≤ 0x200A) ||
  c.toNat = 0x2028 || c.toNat = 0x2029 || c.toNat = 0x202F || c.toNat = 0x205F ||
  c.toNat = 0x3000 || c.toNat = 0xFEFF

/-- `.replace(/[ً-ٰٟ]/g, "")`. -/
def stripDiacriticsL (l : List Char) : List Char :=
  l.filter (fun c => !isArabicDiacritic c)

/-- `.replace(/[آأإٱ]/g, "ا")`. -/
def foldAlefL (l : List Char) : List Char :=
  l.map (fun c => if isAlefVariant c then Char.ofNat 0x627 else c)

/-- `.replace(/ء/g, "")`. -/
def removeHamzaL (l : List Char) : List Char :=
  l.filter (fun c => !(c.toNat = 0x621 : Bool))

/-- `.replace(/ى/g, "ي")`. -/
def foldYehL (l : List Char) : List Char :=
  l.map (fun c => if c.toNat = 0x649 then Char.ofNat 0x64A else c)

/-- `.replace(/ة/g, "ه")`. -/
def foldTehL (l : List Char) : List Char :=
  l.map (fun c => if c.toNat = 0x629 then Char.ofNat 0x647 else c)

/-- `.replace(/\s+/g, " ")`: every maximal whitespace run becomes one
space. -/
def collapseWsL : List Char → List Char
  | [] => []
  | c :: cs =>
    if isJsWs c then ' ' :: collapseWsL (cs.dropWhile isJsWs)
    else c :: collapseWsL cs
termination_by l => l.length
decreasing_by
  · simp only [List.length_cons]
    exact Nat.lt_succ_of_le (List.IsSuffix.length_le (List.dropWhile_suffix isJsWs))
  · simp

/-- `.trim()`. -/
def trimL (l : List Char) : List Char :=
  ((l.dropWhile isJsWs).reverse.dropWhile isJsWs).reverse

/-- `normalizeArabicText` (`paragraphs.ts` lines 63–80). -/
def normalizeArabicText (s : String) : String :=
  String.mk (trimL (collapseWsL (foldTehL (foldYehL (removeHamzaL (foldAlefL
    (stripDiacriticsL s.data)))))))

/-! ## LLM rerankers — `routes/search` reranker module

The `fetch` to the LLM is modelled by an explicit outcome argument.  An
`AbortError` models the per-call timeout firing; `httpError` models a
non-2xx response (the code throws an ordinary `Error` for it and catches
it again); `ok` carries `data.choices?.[0]?.message?.content`. -/

inductive LLMOutcome
  | abortError
  | httpError (statusText : String)
  | ok (content : Option String)
deriving DecidableEq

/-- `data.choices?.[0]?.message?.content || "[]"`: a missing or empty
content string falls back to `"[]"`. -/
def llmContent (c : Option String) : String :=
  match c with
  | some s => if s = "" then "[]" else s
  | none => "[]"

/-- Character class `[\d,\s]` of the ranking regexes. -/
def isRankChar (c : Char) : Bool := c.isDigit || c = ',' || isJsWs c

/-- First match of `/\[[\d,\s]+\]/` (or, with `allowEmpty`, of
`/\[[\d,\s]*\]/`) in the content, returned as the run between the
brackets.  A match is an `[`, a run of class characters (non-empty
unless `allowEmpty`), then `]`; on failure the scan resumes at the next
character, as the regex engine does. -/
def findBracketRun (allowEmpty : Bool) : List Char → Option (List Char)
  | [] => none
  | c :: cs =>
    if c = '[' then
      let run := cs.takeWhile isRankChar
      let rest := cs.dropWhile isRankChar
      if (allowEmpty || !run.isEmpty) && rest.head? = some ']' then some run
      else findBracketRun allowEmpty cs
    else findBracketRun allowEmpty cs

/-- JSON whitespace (strictly smaller than the regex class `\s`). -/
def jsonWs (c : Char) : Bool :=
  c = ' ' || c = '\t' || c = '\n' || c = '\r'

/-- Value of a run of decimal digits. -/
def digitsToNat (ds : List Char) : Nat :=
  ds.foldl (fun n c => 10 * n + (c.toNat - 48)) 0

/-- Parse one JSON number of the restricted grammar the regex can yield
(digit run; no leading zero except the literal `0`). -/
def parseJsonDigits (l : List Char) : Option (Nat × List Char) :=
  let ds := l.takeWhile Char.isDigit
  let rest := l.dropWhile Char.isDigit
  if ds.isEmpty then none
  else if 1 < ds.length ∧ ds.head? = some '0' then none
  else some (digitsToNat ds, rest)

/-- Parse `(ws* ',' ws* number)* ws*` after the first array element. -/
def parseJsonTail : Nat → List Char → Option (List Nat)
  | 0, _ => none
  | fuel + 1, l =>
    let l1 := l.dropWhile jsonWs
    match l1 with
    | [] => some []
    | ',' :: l2 =>
      let l3 := l2.dropWhile jsonWs
      match parseJsonDigits l3 with
      | none => none
      | some (n, rest) => (parseJsonTail fuel rest).map (n :: ·)
    | _ => none

/-- `JSON.parse` of the matched `[...]` substring, as a number array;
`none` models a thrown `SyntaxError`.  `run` is the text between the
brackets (only digits, commas and `\s` characters can occur there). -/
def parseJsonNumArray (run : List Char) : Option (List Nat) :=
  let l1 := run.dropWhile jsonWs
  match l1 with
  | [] => some []
  | _ =>
    match parseJsonDigits l1 with
    | none => none
    | some (n, rest) => (parseJsonTail (rest.length + 1) rest).map (n :: ·)

/-- One step of the ranked-pick loop of `parseLLMRanking`: take the
candidate at 1-based index `docNum` if it is in range and not yet
chosen. -/
def rankingPick {T : Type} [DecidableEq T] (results : List T) (acc : List T)
    (docNum : Nat) : List T :=
  if h : 1 ≤ docNum ∧ docNum ≤ results.length then
    if results.get ⟨docNum - 1, by omega⟩ ∈ acc then acc
    else acc ++ [results.get ⟨docNum - 1, by omega⟩]
  else acc

/-- One step of the back-fill loop of `parseLLMRanking`: append the next
unchosen candidate while below `topN`. -/
def rankingFill {T : Type} [DecidableEq T] (topN : Nat) (acc : List T) (r : T) : List T :=
  if topN ≤ acc.length || r ∈ acc then acc else acc ++ [r]

/-- `parseLLMRanking` (reranker module lines 196–218).  `.error ()`
models the `JSON.parse` exception escaping the function; `.ok none` is
the explicit `null` for a content with no regex match.  Membership tests
model the JS identity test `reranked.includes(...)` by value equality. -/
def parseLLMRanking {T : Type} [DecidableEq T] (content : String) (results : List T)
    (topN : Nat) : Except Unit (Option (List T)) :=
  match findBracketRun false content.data with
  | none => .ok none
  | some run =>
    match parseJsonNumArray run with
    | none => .error ()
    | some ranking =>
      let step1 := (ranking.take topN).foldl (rankingPick results) []
      let filled := results.foldl (rankingFill topN) step1
      .ok (some (filled.take topN))

/-- `rerankWithLLM` (reranker module lines 220–275).  The `query`,
`getText`, `model` and `timeoutMs` arguments only shape the prompt and
the log lines; they do not affect the returned value, so they are not
modelled. -/
def rerankWithLLM {T : Type} [DecidableEq T] (results : List T) (topN : Nat)
    (hasApiKey : Bool) (outcome : LLMOutcome) : List T × Bool :=
  if results.isEmpty || !hasApiKey then (results.take topN, false)
  else
    match outcome with
    | .abortError => (results.take topN, true)
    | .httpError _ => (results.take topN, false)
    | .ok c =>
      match parseLLMRanking (llmContent c) results topN with
      | .error _ => (results.take topN, false)
      | .ok Option.none => (results.take topN, false)
      | .ok (some reranked) => (reranked, false)

/-- The `reranker` query-parameter values (`types.ts`). -/
inductive RerankerType
  | gptOss20b
  | gptOss120b
  | geminiFlash
  | none
deriving DecidableEq

/-- `rerank` (reranker module lines 277–298). -/
def rerank {T : Type} [DecidableEq T] (results : List T) (topN : Nat)
    (reranker : RerankerType) (hasApiKey : Bool) (outcome : LLMOutcome) : List T × Bool :=
  if results.isEmpty || reranker = RerankerType.none then (results.take topN, false)
  else
    match reranker with
    | .gptOss20b => rerankWithLLM results topN hasApiKey outcome
    | .gptOss120b => rerankWithLLM results topN hasApiKey outcome
    | .geminiFlash => rerankWithLLM results topN hasApiKey outcome
    | .none => (results.take topN, false)

/-! ## Unified refine reranker — `rerankUnifiedRefine`

Domain result shapes with the fields this function reads. -/

structure RankedResult where
  bookId : String
  pageNumber : Nat
  textSnippet : String
  semanticScore : Option ℚ
  fusedScore : Option ℚ
deriving DecidableEq

instance : Inhabited RankedResult := ⟨⟨"", 0, "", none, none⟩⟩

structure AyahRankedResult where
  surahNumber : Nat
  ayahNumber : Nat
  ayahEnd : Option Nat
  surahNameArabic : String
  surahNameEnglish : String
  text : String
  semanticScore : Option ℚ
  score : ℚ
  rank : Option Nat
deriving DecidableEq

instance : Inhabited AyahRankedResult := ⟨⟨0, 0, none, "", "", "", none, 0, none⟩⟩

structure HadithRankedResult where
  collectionSlug : String
  hadithNumber : Nat
  bookId : String
  collectionNameArabic : String
  collectionNameEnglish : String
  bookNameArabic : String
  chapterArabic : Option String
  text : String
  semanticScore : Option ℚ
  score : ℚ
  rank : Option Nat
deriving DecidableEq

instance : Inhabited HadithRankedResult := ⟨⟨"", 0, "", "", "", "", none, "", none, 0, none⟩⟩

/-- JS string truthiness for an optional string. -/
def jsTruthyStr (s : Option String) : Bool :=
  match s with
  | some v => !(v = "")
  | none => false

/-- JS number truthiness for an optional number. -/
def jsTruthyNat (n : Option Nat) : Bool :=
  match n with
  | some v => !(v = 0)
  | none => false

/-- `x || y` on optional numeric scores (`0`, like `undefined`, falls
through). -/
def jsNumOr (x : Option ℚ) (y : ℚ) : ℚ :=
  match x with
  | some v => if v = 0 then y else v
  | none => y

/-- JS `.slice(0, n)` on a string (code points model). -/
def strTake (s : String) (n : Nat) : String := String.mk (s.data.take n)

/-- `formatAyahForReranking`. -/
def formatAyahForReranking (ayah : AyahRankedResult) : String :=
  let range :=
    if jsTruthyNat ayah.ayahEnd then
      toString ayah.ayahNumber ++ "-" ++ toString (ayah.ayahEnd.getD 0)
    else toString ayah.ayahNumber
  "[QURAN] " ++ ayah.surahNameArabic ++ " (" ++ ayah.surahNameEnglish ++ "), Ayah " ++
    range ++ "\n" ++ strTake ayah.text 800

/-- `formatHadithForReranking`. -/
def formatHadithForReranking (hadith : HadithRankedResult) : String :=
  let chapter :=
    if jsTruthyStr hadith.chapterArabic then " - " ++ (hadith.chapterArabic.getD "")
    else ""
  "[HADITH] " ++ hadith.collectionNameArabic ++ " (" ++ hadith.collectionNameEnglish ++
    "), " ++ hadith.bookNameArabic ++ chapter ++ "\n" ++ strTake hadith.text 800

/-- `formatBookForReranking`. -/
def formatBookForReranking (result : RankedResult) (bookTitle authorName : Option String) :
    String :=
  let meta :=
    if jsTruthyStr bookTitle then
      "[BOOK] " ++ bookTitle.getD "" ++
        (if jsTruthyStr authorName then " - " ++ authorName.getD "" else "") ++
        ", p." ++ toString result.pageNumber
    else "[BOOK] Page " ++ toString result.pageNumber
  meta ++ "\n" ++ strTake result.textSnippet 800

inductive URType
  | book
  | ayah
  | hadith
deriving DecidableEq

structure UnifiedRefineResult where
  type : URType
  index : Nat
  content : String
  originalScore : ℚ
deriving DecidableEq

structure RefineLimits where
  books : Nat
  ayahs : Nat
  hadiths : Nat
deriving DecidableEq

/-- The `unified` packing loop of `rerankUnifiedRefine` (lines 323–351).
`bookMeta` models `bookMetaMap.get` with value
`(titleArabic, author.nameArabic)`. -/
def buildUnified (books : List RankedResult) (ayahs : List AyahRankedResult)
    (hadiths : List HadithRankedResult) (bookMeta : String → Option (String × String))
    (limits : RefineLimits) : List UnifiedRefineResult :=
  ((books.take limits.books).enum.map fun p =>
    let meta := bookMeta p.2.bookId
    { type := URType.book, index := p.1,
      content := formatBookForReranking p.2 (meta.map Prod.fst) (meta.map Prod.snd),
      originalScore := jsNumOr p.2.semanticScore (jsNumOr p.2.fusedScore 0) }) ++
  ((ayahs.take limits.ayahs).enum.map fun p =>
    { type := URType.ayah, index := p.1, content := formatAyahForReranking p.2,
      originalScore := jsNumOr p.2.semanticScore p.2.score }) ++
  ((hadiths.take limits.hadiths).enum.map fun p =>
    { type := URType.hadith, index := p.1, content := formatHadithForReranking p.2,
      originalScore := jsNumOr p.2.semanticScore p.2.score })

structure RerankedTriple where
  books : List RankedResult
  ayahs : List AyahRankedResult
  hadiths : List HadithRankedResult
deriving DecidableEq

/-- One iteration of the distribution loop of `rerankUnifiedRefine`
(lines 433–450). -/
def distributeStep (unified : List UnifiedRefineResult) (books : List RankedResult)
    (ayahs : List AyahRankedResult) (hadiths : List HadithRankedResult)
    (limits : RefineLimits) (st : RerankedTriple) (docNum : Nat) : RerankedTriple :=
  if h : 1 ≤ docNum ∧ docNum ≤ unified.length then
    let doc := unified.get ⟨docNum - 1, by omega⟩
    let rank := st.books.length + st.ayahs.length + st.hadiths.length + 1
    match doc.type with
    | URType.book =>
      if st.books.length < limits.books then
        { st with books := st.books ++
            [{ books.getD doc.index default with semanticScore := some (1 - (rank : ℚ) / 100) }] }
      else st
    | URType.ayah =>
      if st.ayahs.length < limits.ayahs then
        { st with ayahs := st.ayahs ++
            [{ ayahs.getD doc.index default with rank := some rank, score := 1 - (rank : ℚ) / 100 }] }
      else st
    | URType.hadith =>
      if st.hadiths.length < limits.hadiths then
        { st with hadiths := st.hadiths ++
            [{ hadiths.getD doc.index default with rank := some rank, score := 1 - (rank : ℚ) / 100 }] }
      else st
  else st

/-- The distribution loop of `rerankUnifiedRefine` (lines 433–450). -/
def distributeRanked (ranking : List Nat) (unified : List UnifiedRefineResult)
    (books : List RankedResult) (ayahs : List AyahRankedResult)
    (hadiths : List HadithRankedResult) (limits : RefineLimits) : RerankedTriple :=
  ranking.foldl (distributeStep unified books ayahs hadiths limits) ⟨[], [], []⟩

structure UnifiedRerankOutput where
  books : List RankedResult
  ayahs : List AyahRankedResult
  hadiths : List HadithRankedResult
  timedOut : Bool
deriving DecidableEq

/-- The pass-through result `{books.slice(0, limits.books), ...}`. -/
def unifiedPassThrough (books : List RankedResult) (ayahs : List AyahRankedResult)
    (hadiths : List HadithRankedResult) (limits : RefineLimits) (timedOut : Bool) :
    UnifiedRerankOutput :=
  ⟨books.take limits.books, ayahs.take limits.ayahs, hadiths.take limits.hadiths, timedOut⟩

/-- `rerankUnifiedRefine` (reranker module lines 300–468). -/
def rerankUnifiedRefine (ayahs : List AyahRankedResult) (hadiths : List HadithRankedResult)
    (books : List RankedResult) (bookMeta : String → Option (String × String))
    (limits : RefineLimits) (reranker : RerankerType) (outcome : LLMOutcome) :
    UnifiedRerankOutput :=
  if reranker = RerankerType.none then unifiedPassThrough books ayahs hadiths limits false
  else
    let unified := buildUnified books ayahs hadiths bookMeta limits
    if unified.length < 3 then unifiedPassThrough books ayahs hadiths limits false
    else
      match outcome with
      | .abortError => unifiedPassThrough books ayahs hadiths limits true
      | .httpError _ => unifiedPassThrough books ayahs hadiths limits false
      | .ok c =>
        match findBracketRun true (llmContent c).data with
        | Option.none => unifiedPassThrough books ayahs hadiths limits false
        | some run =>
          match parseJsonNumArray run with
          | Option.none => unifiedPassThrough books ayahs hadiths limits false
          | some ranking =>
            let st := distributeRanked ranking unified books ayahs hadiths limits
            ⟨st.books, st.ayahs, st.hadiths, false⟩

/-! ## Search route — `parseSearchParams` and the GET handler

`c.req.query(...)` is modelled by a record of optional raw strings; the
qdrant `getCollections` helper (outside the extract) is a function
parameter. -/

structure ReqQuery where
  q : Option String
  mode : Option String
  limit : Option String
  bookId : Option String
  includeQuran : Option String
  includeHadith : Option String
  includeBooks : Option String
  reranker : Option String
  similarityCutoff : Option String
  bookLimit : Option String
  fuzzy : Option String
  quranTranslation : Option String
  hadithTranslation : Option String
  bookTitleLang : Option String
  bookContentTranslation : Option String
  refine : Option String
  refineSimilarityCutoff : Option String
  refineOriginalWeight : Option String
  refineExpandedWeight : Option String
  refineBookPerQuery : Option String
  refineAyahPerQuery : Option String
  refineHadithPerQuery : Option String
  refineBookRerank : Option String
  refineAyahRerank : Option String
  refineHadithRerank : Option String
  queryExpansionModel : Option String
  includeGraph : Option String
  embeddingModel : Option String
deriving DecidableEq

/-- A request with no query parameters set. -/
def emptyReq : ReqQuery :=
  ⟨none, none, none, none, none, none, none, none, none, none, none, none, none, none,
   none, none, none, none, none, none, none, none, none, none, none, none, none, none⟩

/-- `x || y` for an optional string left operand (empty string is falsy). -/
def jsOrStr (x : Option String) (y : String) : String :=
  match x with
  | some s => if s = "" then y else s
  | none => y

/-- Model of JS `parseInt(s, 10)`; `none` is `NaN`. -/
def jsParseInt (s : String) : Option Int :=
  let l := s.data.dropWhile isJsWs
  let signAndRest : Int × List Char :=
    match l with
    | '-' :: rest => (-1, rest)
    | '+' :: rest => (1, rest)
    | _ => (1, l)
  let ds := signAndRest.2.takeWhile Char.isDigit
  if ds.isEmpty then none else some (signAndRest.1 * (digitsToNat ds : Int))

/-- Model of JS `parseFloat(s)` for the decimal shapes the route uses
(exponent suffixes are not modelled); `none` is `NaN`. -/
def jsParseFloat (s : String) : Option ℚ :=
  let l := s.data.dropWhile isJsWs
  let signAndRest : ℚ × List Char :=
    match l with
    | '-' :: rest => (-1, rest)
    | '+' :: rest => (1, rest)
    | _ => (1, l)
  let ip := signAndRest.2.takeWhile Char.isDigit
  let l3 := signAndRest.2.dropWhile Char.isDigit
  let fp :=
    match l3 with
    | '.' :: rest => rest.takeWhile Char.isDigit
    | _ => []
  if ip.isEmpty && fp.isEmpty then none
  else some (signAndRest.1 * ((digitsToNat ip : ℚ) + (digitsToNat fp : ℚ) / 10 ^ fp.length))

/-- `Math.min(Math.max(x, lo), hi)`; `NaN` propagates. -/
def jsClampInt (x : Option Int) (lo hi : Int) : Option Int :=
  x.map (fun v => min (max v lo) hi)

/-- `Math.min(Math.max(x, lo), hi)` on floats; `NaN` propagates. -/
def jsClampQ (x : Option ℚ) (lo hi : ℚ) : Option ℚ :=
  x.map (fun v => min (max v lo) hi)

def MAX_QUERY_LENGTH : Nat := 500

structure SearchParams where
  query : String
  limit : Option Int
  bookId : Option String
  mode : String
  includeQuran : Bool
  includeHadith : Bool
  includeBooks : Bool
  reranker : String
  similarityCutoff : Option ℚ
  bookLimit : Option Int
  fuzzyEnabled : Bool
  quranTranslation : String
  hadithTranslation : String
  bookTitleLang : Option String
  bookContentTranslation : String
  refine : Bool
  refineSimilarityCutoff : Option ℚ
  refineOriginalWeight : Option ℚ
  refineExpandedWeight : Option ℚ
  refineBookPerQuery : Option Int
  refineAyahPerQuery : Option Int
  refineHadithPerQuery : Option Int
  refineBookRerank : Option Int
  refineAyahRerank : Option Int
  refineHadithRerank : Option Int
  queryExpansionModel : String
  includeGraph : Bool
  embeddingModel : String
  pageCollection : String
  quranCollection : String
  hadithCollection : String
  embeddingDimensions : Nat
deriving DecidableEq

structure ParseErrorResult where
  error : String
  status : Nat
deriving DecidableEq

/-- `parseSearchParams` (params module lines 46–104). -/
def parseSearchParams (getCollections : String → String × String × String × Nat)
    (req : ReqQuery) : Except ParseErrorResult SearchParams :=
  match req.q with
  | Option.none => .error ⟨"Query parameter 'q' is required", 400⟩
  | some query =>
    if query = "" ∨ trimL query.data = [] then
      .error ⟨"Query parameter 'q' is required", 400⟩
    else if MAX_QUERY_LENGTH < query.length then
      .error ⟨"Query too long (max 500 characters)", 400⟩
    else
      let mode := jsOrStr req.mode "hybrid"
      if ¬(mode = "hybrid" ∨ mode = "semantic" ∨ mode = "keyword") then
        .error ⟨"Invalid mode. Must be 'hybrid', 'semantic', or 'keyword'", 400⟩
      else
        let reranker :=
          match req.reranker with
          | some r =>
            if r ≠ "" ∧ (r = "gpt-oss-20b" ∨ r = "gpt-oss-120b" ∨ r = "gemini-flash" ∨ r = "none")
            then r else "none"
          | Option.none => "none"
        let refine := req.refine = some "true"
        let embeddingModel := if req.embeddingModel = some "bge-m3" then "bge-m3" else "gemini"
        let colls := getCollections embeddingModel
        .ok
          { query := query
            limit := jsClampInt (jsParseInt (jsOrStr req.limit "20")) 1 100
            bookId := match req.bookId with
              | some b => if b = "" then Option.none else some b
              | Option.none => Option.none
            mode := mode
            includeQuran := req.includeQuran ≠ some "false"
            includeHadith := req.includeHadith ≠ some "false"
            includeBooks := req.includeBooks ≠ some "false"
            reranker := reranker
            similarityCutoff := jsParseFloat (jsOrStr req.similarityCutoff "0.6")
            bookLimit := jsClampInt (jsParseInt (jsOrStr req.bookLimit "10")) 5 50
            fuzzyEnabled := req.fuzzy ≠ some "false"
            quranTranslation := jsOrStr req.quranTranslation "none"
            hadithTranslation := jsOrStr req.hadithTranslation "none"
            bookTitleLang := req.bookTitleLang
            bookContentTranslation := jsOrStr req.bookContentTranslation "none"
            refine := refine
            refineSimilarityCutoff :=
              if refine then jsParseFloat (jsOrStr req.refineSimilarityCutoff "0.25")
              else jsParseFloat "0.25"
            refineOriginalWeight :=
              jsClampQ (jsParseFloat (jsOrStr req.refineOriginalWeight "1.0")) (1/2) 1
            refineExpandedWeight :=
              jsClampQ (jsParseFloat (jsOrStr req.refineExpandedWeight "0.7")) (3/10) 1
            refineBookPerQuery :=
              jsClampInt (jsParseInt (jsOrStr req.refineBookPerQuery "30")) 10 60
            refineAyahPerQuery :=
              jsClampInt (jsParseInt (jsOrStr req.refineAyahPerQuery "30")) 10 60
            refineHadithPerQuery :=
              jsClampInt (jsParseInt (jsOrStr req.refineHadithPerQuery "30")) 10 60
            refineBookRerank :=
              jsClampInt (jsParseInt (jsOrStr req.refineBookRerank "20")) 5 40
            refineAyahRerank :=
              jsClampInt (jsParseInt (jsOrStr req.refineAyahRerank "12")) 5 25
            refineHadithRerank :=
              jsClampInt (jsParseInt (jsOrStr req.refineHadithRerank "15")) 5 25
            queryExpansionModel := jsOrStr req.queryExpansionModel "gemini-flash"
            includeGraph := req.includeGraph ≠ some "false"
            embeddingModel := embeddingModel
            pageCollection := colls.1
            quranCollection := colls.2.1
            hadithCollection := colls.2.2.1
            embeddingDimensions := colls.2.2.2 }

/-- A value thrown by the search pipeline: either an `Error` instance
(with its `message`) or any other thrown value. -/
inductive JsThrown
  | jsError (message : String)
  | nonError (stringified : String)
deriving DecidableEq

/-- What the `try` block of the handler would produce for given parsed
params: a response body or a thrown value. -/
inductive PipeOutcome (B : Type)
  | ok (body : B)
  | thrown (e : JsThrown)

/-- Structured error body `{ error, message? }`. -/
structure ErrorBody where
  error : String
  message : Option String
deriving DecidableEq

/-- Outcome of one GET request to the search route. -/
inductive SearchHttpResult (B : Type)
  | success (body : B)
  | failure (status : Nat) (body : ErrorBody)
deriving DecidableEq

/-- JS `String(error)` for the two thrown shapes. -/
def jsStringified : JsThrown → String
  | .jsError m => "Error: " ++ m
  | .nonError s => s

/-- The `searchRoutes.get("/")` handler (`routes/search/index.ts`
lines 14–144), with the whole `try` body abstracted as `pipeline`. -/
def searchRoutesGet {B : Type} (getCollections : String → String × String × String × Nat)
    (isProduction : Bool) (req : ReqQuery) (pipeline : SearchParams → PipeOutcome B) :
    SearchHttpResult B :=
  match parseSearchParams getCollections req with
  | .error e => .failure e.status ⟨e.error, Option.none⟩
  | .ok params =>
    match pipeline params with
    | .ok body => .success body
    | .thrown e =>
      match e with
      | .jsError msg =>
        if strContains msg "Collection not found" then
          .failure 503 ⟨"Search index not initialized",
            some "Run the embedding generation script first"⟩
        else
          .failure 500 ⟨"Search failed",
            if isProduction then Option.none else some (jsStringified e)⟩
      | .nonError _ =>
        .failure 500 ⟨"Search failed",
          if isProduction then Option.none else some (jsStringified e)⟩

/-! ## Specification-side predicates used by the theorems -/

/-- The association list has pairwise-distinct keys (always true of a JS
`Map`). -/
def mapKeysNodup {α β : Type} (m : List (α × β)) : Prop := (m.map Prod.fst).Nodup

/-- Characters rewritten or removed by the per-character steps of
`normalizeArabicText`. -/
def isNormTrigger (c : Char) : Bool :=
  isArabicDiacritic c || isAlefVariant c || c.toNat = 0x621 || c.toNat = 0x649 ||
    c.toNat = 0x629

/-- All whitespace is a plain space and no two whitespace characters are
adjacent. -/
def wsNormalizedL (l : List Char) : Prop :=
  (∀ c ∈ l, isJsWs c → c = ' ') ∧ List.Chain' (fun a b => ¬(isJsWs a ∧ isJsWs b)) l

/-- Neither end of the list is whitespace. -/
def noEdgeWs (l : List Char) : Prop :=
  (∀ c, l.head? = some c → ¬ (isJsWs c = true)) ∧
    (∀ c, l.getLast? = some c → ¬ (isJsWs c = true))

/-- Claim C2's amended adjacency guarantee: between two consecutive
results, a fused-score gap beyond the tolerance is ordered by fused
score, and a gap within the tolerance is ordered by RRF score. -/
def fusionAdjacentOK (a b : MItem) : Prop :=
  (FLOAT_TOLERANCE < |b.fusedScore - a.fusedScore| → b.fusedScore < a.fusedScore) ∧
    (|b.fusedScore - a.fusedScore| ≤ FLOAT_TOLERANCE → b.rrfScore ≤ a.rrfScore)

/-- Counterexample input for claim C2: two semantic-only results whose
fused scores differ by `1/2000 < FLOAT_TOLERANCE` while their RRF order
opposes their fused order. -/
def c2ItemA : MItem := ⟨1, some 3, none, some 1, none, none, none, none, "", none, 0, 0, 0⟩

/-- Second counterexample input for claim C2. -/
def c2ItemB : MItem :=
  ⟨2, some 1, none, some (1999/2000), none, none, none, none, "", none, 0, 0, 0⟩

/-- Witness input for claim C1: a semantic result for key 1. -/
def c1Sem : MItem := ⟨1, some 1, none, some (1/2), none, none, none, none, "", none, 0, 0, 0⟩

/-- Witness input for claim C1: a keyword result for the same key with a
raw BM25 score of 8. -/
def c1Kw : MItem :=
  ⟨1, none, some 2, none, some 3, none, some 8, some 3, "", none, 0, 0, 0⟩

/-- Witness inputs for claim C10: one candidate of each domain. -/
def c10Ayah : AyahRankedResult := ⟨1, 1, none, "a", "e", "t1", none, 1/2, none⟩

/-- Witness hadith for claim C10. -/
def c10Hadith : HadithRankedResult := ⟨"s", 7, "b", "c", "ce", "bn", none, "h", none, 1/3, none⟩

/-- Witness book for claim C10. -/
def c10Book : RankedResult := ⟨"b1", 3, "s", none, none⟩

/-- The merged item produced by the claim C1 witness inputs: both
engines found key 1; fused = 0.8·(1/2) + 0.3·(8/(8+8)) = 11/20,
RRF = 1/61 + 1/62 = 123/3782. -/
def c1Merged : MItem :=
  ⟨1, some 1, some 2, some (1/2), some (11/20), none, some 8, some 3, "", none,
    123/3782, 11/20, 0⟩

/-- The weighted-RRF score held by an optional map entry. -/
def optScore (v : Option MItem) : ℚ :=
  match v with
  | Option.none => 0
  | some x => x.weightedRrfScore

/-- Key `k` occurs in the variant list exactly at 0-based rank `r`. -/
def keyOnlyAtRank (getKey : MItem → Nat) (k : Nat) (results : List MItem) (r : Nat) : Prop :=
  (results.get? r).map getKey = some k ∧
    ∀ r', (results.get? r').map getKey = some k → r' = r

/-- Key `k` does not occur in the variant list. -/
def keyAbsent (getKey : MItem → Nat) (k : Nat) (results : List MItem) : Prop :=
  ∀ x ∈ results, getKey x ≠ k

/-- Concrete item with key 1 for the C3 witness. -/
def c3X : MItem := ⟨1, none, none, none, none, none, none, none, "", none, 0, 0, 0⟩

/-- Concrete item with key 2 for the C3 witness. -/
def c3Y : MItem := ⟨2, none, none, none, none, none, none, none, "", none, 0, 0, 0⟩

/-- Two query-variants for the C3 witness: key 1 at rank 0 in both, key 2
only at rank 1 of the first. -/
def c3qs : List (List MItem × ℚ) := [([c3X, c3Y], 1), ([c3X], 1/2)]

/-! ## Theorems -/

theorem jsMapGet_jsMapSet_self {α β : Type} [DecidableEq α] (m : List (α × β)) (k : α)
    (v : β) : jsMapGet (jsMapSet m k v) k = some v := by
  induction m with
  | nil => simp [jsMapSet, jsMapGet]
  | cons p rest ih =>
    by_cases h : p.1 = k
    · simp [jsMapSet, jsMapGet, h]
    · simp [jsMapSet, jsMapGet, h, ih]

theorem jsMapSet_length_le {α β : Type} [DecidableEq α] (m : List (α × β)) (k : α) (v : β) :
    (jsMapSet m k v).length ≤ m.length + 1 := by
  induction m with
  | nil => simp [jsMapSet]
  | cons p rest ih =>
    by_cases h : p.1 = k
    · simp [jsMapSet, h]
    · simp only [jsMapSet, if_neg h, List.length_cons]
      omega

theorem jsMapDelete_length_le {α β : Type} [DecidableEq α] (m : List (α × β)) (k : α) :
    (jsMapDelete m k).length ≤ m.length :=
  List.length_filter_le _ m

/-- Claim C2, counterexample.  On two semantic-only inputs whose fused
scores are `1` and `1999/2000` (difference `1/2000`, inside the
tolerance) and whose RRF order opposes the fused order, the merge
returns the item with the *smaller* fused score first, so the returned
list is not sorted by fused score descending. -/
theorem claim_C2_counterexample :
    (mergeWithRRF [c2ItemA, c2ItemB] []).map (·.fusedScore) = [1999/2000, 1] ∧
      (1999/2000 : ℚ) < 1 := by
  constructor
  · have habs : |(1:ℚ)/2000| = 1/2000 := by
      rw [abs_of_pos]
      norm_num
    norm_num [mergeWithRRF, mergeWithRRFGeneric, fusionSeedSemantic, fusionAddKeyword,
      jsMapSet, jsMapGet, applyFusionScores, calculateFusedScore, calculateRRFScore,
      fusionCompare, fusionLE, List.insertionSort, List.orderedInsert, c2ItemA, c2ItemB,
      SEMANTIC_WEIGHT, KEYWORD_WEIGHT, FLOAT_TOLERANCE, RRF_K, BM25_NORM_K,
      normalizeBM25Score, habs]
  · norm_num

/-- Claim C5, counterexample.  A non-2xx LLM response makes `rerank`
return the original top-N slice with `timedOut = false`, not `true` as
the claim states. -/
theorem claim_C5_counterexample :
    rerank [10, 20, 30] 2 RerankerType.gptOss20b true (LLMOutcome.httpError "Bad Gateway") =
      ([10, 20], false) := by
  decide

/-- Claim C5 as amended: on a timeout *or* a non-2xx response `rerank`
returns the original top-N slice; `timedOut` is `true` exactly on the
timeout (cancellation) path, and `false` on a non-2xx response; whenever
`timedOut` is `true` the returned list is the original top-N slice. -/
theorem claim_C5_amended {T : Type} [DecidableEq T] (results : List T) (topN : Nat)
    (reranker : RerankerType) (hasApiKey : Bool) (outcome : LLMOutcome) :
    ((outcome = LLMOutcome.abortError ∨ (∃ st, outcome = LLMOutcome.httpError st)) →
      (rerank results topN reranker hasApiKey outcome).1 = results.take topN) ∧
    ((rerank results topN reranker hasApiKey outcome).2 = true →
      (rerank results topN reranker hasApiKey outcome).1 = results.take topN) ∧
    ((rerank results topN reranker hasApiKey outcome).2 = true ↔
      (outcome = LLMOutcome.abortError ∧ reranker ≠ RerankerType.none ∧ results ≠ [] ∧
        hasApiKey = true)) := by
  cases results with
  | nil => cases reranker <;> cases outcome <;> simp [rerank, rerankWithLLM]
  | cons a l =>
    cases reranker <;> cases hasApiKey <;> cases outcome <;>
      simp [rerank, rerankWithLLM] <;>
      rcases hp : parseLLMRanking (llmContent _) (a :: l) topN with _ | _ | _ <;>
      simp [hp]

/-- Claim C6, counterexample.  The response `[4, 2]` contains the
out-of-range index 4 (only 3 candidates), yet the parser does not fall
back to the original order: it keeps candidate 2 first and back-fills
the rest, returning `[20, 10, 30]` rather than `[10, 20, 30]`. -/
theorem claim_C6_counterexample :
    parseLLMRanking "[4, 2]" [10, 20, 30] 3 = Except.ok (some [20, 10, 30]) ∧
      [20, 10, 30] ≠ [10, 20, 30] := by
  exact ⟨rfl, by decide⟩

/-- Any parse failure of `parseSearchParams` carries status 400. -/
theorem parseSearchParams_error_status (getCollections : String → String × String × String × Nat)
    (req : ReqQuery) (e : ParseErrorResult)
    (h : parseSearchParams getCollections req = .error e) : e.status = 400 := by
  cases hq : req.q with
  | none =>
    simp [parseSearchParams, hq] at h
    rw [← h]
  | some q =>
    simp only [parseSearchParams, hq] at h
    split_ifs at h <;> simp_all <;> rw [← h]

/-- Claim C4, counterexample.  A pipeline error whose message contains
"Collection not found" is answered with status 503, but the body's
`message` field is "Run the embedding generation script first", not
"Collection not found" as the claim states. -/
theorem claim_C4_counterexample :
    searchRoutesGet (B := Unit) (fun _ => ("", "", "", 0)) false
      { emptyReq with q := some "test" }
      (fun _ => PipeOutcome.thrown (JsThrown.jsError "Collection not found")) =
      SearchHttpResult.failure 503
        ⟨"Search index not initialized", some "Run the embedding generation script first"⟩ ∧
      some "Run the embedding generation script first" ≠ some "Collection not found" := by
  constructor
  · rfl
  · decide

/-- Claim C4 as amended: a parameter-validation failure (missing/blank
or over-500-character query, unknown mode) yields status 400 and the
pipeline is never consulted; a pipeline `Error` whose message contains
"Collection not found" yields status 503 with body error
"Search index not initialized" and message
"Run the embedding generation script first"; every other pipeline error
yields status 500. -/
theorem claim_C4_amended {B : Type} (getCollections : String → String × String × String × Nat)
    (isProduction : Bool) (req : ReqQuery) (pipeline : SearchParams → PipeOutcome B) :
    (∀ e, parseSearchParams getCollections req = .error e →
      e.status = 400 ∧
      searchRoutesGet getCollections isProduction req pipeline =
        SearchHttpResult.failure 400 ⟨e.error, Option.none⟩ ∧
      ∀ pipeline2, searchRoutesGet getCollections isProduction req pipeline2 =
        searchRoutesGet getCollections isProduction req pipeline) ∧
    ((req.q = Option.none ∨ req.q = some "" ∨ (∃ s, req.q = some s ∧ trimL s.data = []) ∨
      (∃ s, req.q = some s ∧ MAX_QUERY_LENGTH < s.length) ∨
      ¬(jsOrStr req.mode "hybrid" = "hybrid" ∨ jsOrStr req.mode "hybrid" = "semantic" ∨
        jsOrStr req.mode "hybrid" = "keyword")) →
      ∃ e, parseSearchParams getCollections req = .error e) ∧
    (∀ params m, parseSearchParams getCollections req = .ok params →
      pipeline params = PipeOutcome.thrown (JsThrown.jsError m) →
      strContains m "Collection not found" = true →
      searchRoutesGet getCollections isProduction req pipeline =
        SearchHttpResult.failure 503
          ⟨"Search index not initialized", some "Run the embedding generation script first"⟩) ∧
    (∀ params e, parseSearchParams getCollections req = .ok params →
      pipeline params = PipeOutcome.thrown e →
      (∀ m, e = JsThrown.jsError m → strContains m "Collection not found" = false) →
      ∃ body, searchRoutesGet getCollections isProduction req pipeline =
        SearchHttpResult.failure 500 body ∧ body.error = "Search failed") := by
  refine ⟨?_, ?_, ?_, ?_⟩
  · intro e he
    have h4 := parseSearchParams_error_status getCollections req e he
    refine ⟨h4, ?_, ?_⟩
    · simp [searchRoutesGet, he, h4]
    · intro pipeline2
      rw [searchRoutesGet, searchRoutesGet, he]
  · intro hbad
    cases hq : req.q with
    | none =>
      exact ⟨⟨"Query parameter 'q' is required", 400⟩, by simp [parseSearchParams, hq]⟩
    | some q =>
      by_cases h1 : q = "" ∨ trimL q.data = []
      · refine ⟨⟨"Query parameter 'q' is required", 400⟩, ?_⟩
        simp only [parseSearchParams, hq]
        rw [if_pos h1]
      · by_cases h2 : MAX_QUERY_LENGTH < q.length
        · refine ⟨⟨"Query too long (max 500 characters)", 400⟩, ?_⟩
          simp only [parseSearchParams, hq]
          rw [if_neg h1, if_pos h2]
        · have h3 : ¬(jsOrStr req.mode "hybrid" = "hybrid" ∨
              jsOrStr req.mode "hybrid" = "semantic" ∨
              jsOrStr req.mode "hybrid" = "keyword") := by
            rcases hbad with h | h | ⟨s, hs, h⟩ | ⟨s, hs, h⟩ | h
            · rw [hq] at h; cases h
            · rw [hq] at h
              cases h
              exact absurd (Or.inl rfl) h1
            · rw [hq] at hs
              cases hs
              exact absurd (Or.inr h) h1
            · rw [hq] at hs
              cases hs
              exact absurd h h2
            · exact h
          refine ⟨⟨"Invalid mode. Must be 'hybrid', 'semantic', or 'keyword'", 400⟩, ?_⟩
          simp only [parseSearchParams, hq]
          rw [if_neg h1, if_neg h2, if_pos h3]
  · intro params m hp hpipe hcontains
    rw [searchRoutesGet, hp]
    simp only [hpipe, hcontains, if_pos]
  · intro params e hp hpipe hother
    rw [searchRoutesGet, hp]
    cases e with
    | jsError m =>
      simp only [hpipe]
      rw [if_neg]
      · exact ⟨_, rfl, rfl⟩
      · simp [hother m rfl]
    | nonError s =>
      simp only [hpipe]
      exact ⟨_, rfl, rfl⟩

/-- Witness for claim C4: the amended theorem applied to the empty
request (missing `q`) with a trivial pipeline. -/
theorem claim_C4_witness :
    searchRoutesGet (B := Unit) (fun _ => ("", "", "", 0)) true emptyReq
      (fun _ => PipeOutcome.ok ()) =
      SearchHttpResult.failure 400 ⟨"Query parameter 'q' is required", Option.none⟩ := by
  have h : parseSearchParams (fun _ => ("", "", "", 0)) emptyReq =
      Except.error ⟨"Query parameter 'q' is required", 400⟩ := rfl
  exact ((claim_C4_amended (B := Unit) (fun _ => ("", "", "", 0)) true emptyReq
    (fun _ => PipeOutcome.ok ())).1 _ h).2.1

theorem rankingPick_prefix {T : Type} [DecidableEq T] (results acc : List T) (n : Nat) :
    ∃ t, rankingPick results acc n = acc ++ t := by
  unfold rankingPick
  split
  · split
    · exact ⟨[], by simp⟩
    · exact ⟨_, rfl⟩
  · exact ⟨[], by simp⟩

theorem foldl_rankingPick_prefix {T : Type} [DecidableEq T] (results : List T) :
    ∀ (l : List Nat) (acc : List T), ∃ t, l.foldl (rankingPick results) acc = acc ++ t := by
  intro l
  induction l with
  | nil => exact fun acc => ⟨[], by simp⟩
  | cons n rest ih =>
    intro acc
    obtain ⟨t1, h1⟩ := rankingPick_prefix results acc n
    obtain ⟨t2, h2⟩ := ih (rankingPick results acc n)
    exact ⟨t1 ++ t2, by rw [List.foldl_cons, h2, h1, List.append_assoc]⟩

theorem rankingPick_mem_of_mem {T : Type} [DecidableEq T] (results acc : List T) (n : Nat)
    (x : T) (hx : x ∈ rankingPick results acc n) : x ∈ acc ∨ x ∈ results := by
  unfold rankingPick at hx
  split at hx
  · split at hx
    · exact Or.inl hx
    · rcases List.mem_append.1 hx with h | h
      · exact Or.inl h
      · simp only [List.mem_singleton] at h
        exact Or.inr (h ▸ List.get_mem _ _ _)
  · exact Or.inl hx

theorem foldl_rankingPick_mem_of_mem {T : Type} [DecidableEq T] (results : List T) :
    ∀ (l : List Nat) (acc : List T) (x : T),
      x ∈ l.foldl (rankingPick results) acc → x ∈ acc ∨ x ∈ results := by
  intro l
  induction l with
  | nil => intro acc x hx; exact Or.inl hx
  | cons n rest ih =>
    intro acc x hx
    rcases ih (rankingPick results acc n) x hx with h | h
    · exact rankingPick_mem_of_mem results acc n x h
    · exact Or.inr h

theorem rankingPick_picks {T : Type} [DecidableEq T] (results acc : List T) (n : Nat)
    (h : 1 ≤ n ∧ n ≤ results.length) :
    results.get ⟨n - 1, by omega⟩ ∈ rankingPick results acc n := by
  unfold rankingPick
  rw [dif_pos h]
  split
  · assumption
  · simp

theorem foldl_rankingPick_picks {T : Type} [DecidableEq T] (results : List T) :
    ∀ (l : List Nat) (acc : List T) (n : Nat), n ∈ l → ∀ h : 1 ≤ n ∧ n ≤ results.length,
      results.get ⟨n - 1, by omega⟩ ∈ l.foldl (rankingPick results) acc := by
  intro l
  induction l with
  | nil => intro acc n hn; cases hn
  | cons m rest ih =>
    intro acc n hn h
    rcases List.mem_cons.1 hn with rfl | hn'
    · obtain ⟨t, ht⟩ := foldl_rankingPick_prefix results rest (rankingPick results acc n)
      rw [List.foldl_cons, ht]
      exact List.mem_append_left _ (rankingPick_picks results acc n h)
    · exact ih (rankingPick results acc m) n hn' h

theorem rankingPick_cases {T : Type} [DecidableEq T] (results acc : List T) (n : Nat) :
    rankingPick results acc n = acc ∨ ∃ x, rankingPick results acc n = acc ++ [x] := by
  unfold rankingPick
  split
  · split
    · exact Or.inl rfl
    · exact Or.inr ⟨_, rfl⟩
  · exact Or.inl rfl

theorem rankingPick_nodup {T : Type} [DecidableEq T] (results acc : List T) (n : Nat)
    (h : acc.Nodup) : (rankingPick results acc n).Nodup := by
  unfold rankingPick
  split
  · split
    · exact h
    · rename_i hmem
      refine List.Nodup.append h (List.nodup_singleton _) ?_
      intro x hx hx'
      simp only [List.mem_singleton] at hx'
      subst hx'
      exact hmem hx
  · exact h

theorem foldl_rankingPick_nodup {T : Type} [DecidableEq T] (results : List T) :
    ∀ (l : List Nat) (acc : List T), acc.Nodup → (l.foldl (rankingPick results) acc).Nodup := by
  intro l
  induction l with
  | nil => exact fun acc h => h
  | cons n rest ih => exact fun acc h => ih _ (rankingPick_nodup results acc n h)

theorem foldl_rankingPick_length {T : Type} [DecidableEq T] (results : List T) :
    ∀ (l : List Nat) (acc : List T),
      (l.foldl (rankingPick results) acc).length ≤ acc.length + l.length := by
  intro l
  induction l with
  | nil => simp
  | cons n rest ih =>
    intro acc
    have h1 : (rankingPick results acc n).length ≤ acc.length + 1 := by
      rcases rankingPick_cases results acc n with h | ⟨x, h⟩ <;> simp [h]
    calc (List.foldl (rankingPick results) (rankingPick results acc n) rest).length
        ≤ (rankingPick results acc n).length + rest.length := ih _
      _ ≤ acc.length + 1 + rest.length := by omega
      _ = acc.length + (n :: rest).length := by simp; omega

theorem foldl_rankingFill_prefix {T : Type} [DecidableEq T] (topN : Nat) :
    ∀ (rs acc : List T), ∃ t, rs.foldl (rankingFill topN) acc = acc ++ t := by
  intro rs
  induction rs with
  | nil => exact fun acc => ⟨[], by simp⟩
  | cons r rest ih =>
    intro acc
    have h1 : rankingFill topN acc r = acc ∨ rankingFill topN acc r = acc ++ [r] := by
      unfold rankingFill
      split
      · exact Or.inl rfl
      · exact Or.inr rfl
    obtain ⟨t2, h2⟩ := ih (rankingFill topN acc r)
    rcases h1 with h | h
    · exact ⟨t2, by rw [List.foldl_cons, h2, h]⟩
    · exact ⟨r :: t2, by rw [List.foldl_cons, h2, h]; simp⟩

theorem foldl_rankingFill_mem_of_mem {T : Type} [DecidableEq T] (topN : Nat) :
    ∀ (rs acc : List T) (x : T), x ∈ rs.foldl (rankingFill topN) acc → x ∈ acc ∨ x ∈ rs := by
  intro rs
  induction rs with
  | nil => exact fun acc x hx => Or.inl hx
  | cons r rest ih =>
    intro acc x hx
    rcases ih (rankingFill topN acc r) x hx with h | h
    · unfold rankingFill at h
      split at h
      · exact Or.inl h
      · rcases List.mem_append.1 h with h' | h'
        · exact Or.inl h'
        · simp only [List.mem_singleton] at h'
          exact Or.inr (by simp [h'])
    · exact Or.inr (List.mem_cons_of_mem _ h)

theorem foldl_rankingFill_nodup {T : Type} [DecidableEq T] (topN : Nat) :
    ∀ (rs acc : List T), acc.Nodup → (rs.foldl (rankingFill topN) acc).Nodup := by
  intro rs
  induction rs with
  | nil => exact fun acc h => h
  | cons r rest ih =>
    intro acc h
    refine ih _ ?_
    unfold rankingFill
    split
    · exact h
    · rename_i hc
      simp only [Bool.or_eq_true, decide_eq_true_eq, not_or] at hc
      exact List.Nodup.append h (List.nodup_singleton _) (by
        intro x hx hx'
        simp only [List.mem_singleton] at hx'
        subst hx'
        exact absurd hx (by simpa using hc.2))

theorem foldl_rankingFill_stuck {T : Type} [DecidableEq T] (topN : Nat) :
    ∀ (rs acc : List T), topN ≤ acc.length → rs.foldl (rankingFill topN) acc = acc := by
  intro rs
  induction rs with
  | nil => intro acc _; rfl
  | cons r rest ih =>
    intro acc h
    rw [List.foldl_cons]
    have : rankingFill topN acc r = acc := by
      unfold rankingFill
      rw [if_pos]
      simp [h]
    rw [this]
    exact ih acc h

theorem foldl_rankingFill_length {T : Type} [DecidableEq T] (topN : Nat) :
    ∀ (rs acc : List T), rs.Nodup → acc.length ≤ topN →
      (rs.foldl (rankingFill topN) acc).length =
        min topN (acc.length + (rs.filter (fun r => decide (r ∉ acc))).length) := by
  intro rs
  induction rs with
  | nil =>
    intro acc _ hle
    simp [Nat.min_eq_right hle]
  | cons r rest ih =>
    intro acc hnd hle
    rw [List.foldl_cons]
    by_cases hfull : topN ≤ acc.length
    · have hacc : acc.length = topN := le_antisymm hle hfull
      have : rankingFill topN acc r = acc := by
        unfold rankingFill
        rw [if_pos]
        simp [hfull]
      rw [this, foldl_rankingFill_stuck topN rest acc hfull, hacc]
      have : topN ≤ topN + (List.filter (fun r => decide (r ∉ acc)) (r :: rest)).length :=
        Nat.le_add_right _ _
      omega
    · push_neg at hfull
      by_cases hmem : r ∈ acc
      · have : rankingFill topN acc r = acc := by
          unfold rankingFill
          rw [if_pos]
          simp [hmem]
        rw [this, ih acc hnd.of_cons hle]
        have : List.filter (fun x => decide (x ∉ acc)) (r :: rest) =
            List.filter (fun x => decide (x ∉ acc)) rest := by
          rw [List.filter_cons]
          simp [hmem]
        rw [this]
      · have hstep : rankingFill topN acc r = acc ++ [r] := by
          unfold rankingFill
          rw [if_neg]
          simp [hmem]
          omega
        have hlen1 : (acc ++ [r]).length = acc.length + 1 := by simp
        have hle1 : (acc ++ [r]).length ≤ topN := by
          rw [hlen1]; omega
        rw [hstep, ih (acc ++ [r]) hnd.of_cons hle1, hlen1]
        have hcong : List.filter (fun x => decide (x ∉ acc ++ [r])) rest =
            List.filter (fun x => decide (x ∉ acc)) rest := by
          apply List.filter_congr
          intro x hx
          have hxr : x ≠ r := by
            intro h
            subst h
            exact (List.nodup_cons.1 hnd).1 hx
          simp [List.mem_append, hxr]
        rw [hcong]
        have : List.filter (fun x => decide (x ∉ acc)) (r :: rest) =
            r :: List.filter (fun x => decide (x ∉ acc)) rest := by
          rw [List.filter_cons]
          simp [hmem]
        rw [this]
        simp only [List.length_cons]
        omega

theorem filter_not_mem_length {T : Type} [DecidableEq T] (results sub : List T)
    (hres : results.Nodup) (hsub : sub.Nodup) (hss : ∀ x ∈ sub, x ∈ results) :
    (results.filter (fun r => decide (r ∉ sub))).length = results.length - sub.length := by
  have hperm : (results.filter (fun r => decide (r ∈ sub))).Perm sub := by
    rw [List.perm_ext_iff_of_nodup (List.Nodup.filter _ hres) hsub]
    intro a
    simp only [List.mem_filter, decide_eq_true_eq]
    exact ⟨fun h => h.2, fun h => ⟨hss a h, h⟩⟩
  have hlen : (results.filter (fun r => decide (r ∈ sub))).length = sub.length :=
    hperm.length_eq
  have hsplit := @List.length_eq_length_filter_add _ results (fun r => decide (r ∈ sub))
  have hcong : results.filter (fun r => !decide (r ∈ sub)) =
      results.filter (fun r => decide (r ∉ sub)) := by
    apply List.filter_congr
    intro x _
    simp
  have hclen : (results.filter (fun r => !decide (r ∈ sub))).length =
      (results.filter (fun r => decide (r ∉ sub))).length := by rw [hcong]
  omega

/-- Claim C6 as amended: the ranking is parsed from the first bracketed
run of digits, commas and whitespace; no such run, or invalid JSON,
falls back to the original top-N order; but out-of-range or duplicate
indices are skipped individually — the in-range first occurrences are
kept (each listed index's candidate appears in the output) and the
remaining slots are back-filled with unchosen candidates in original
order, truncated to top-N, so the output is a duplicate-free sublist of
the candidates of length `min topN |results|`. -/
theorem claim_C6_amended {T : Type} [DecidableEq T] (content : String) (results : List T)
    (topN : Nat) :
    (findBracketRun false content.data = Option.none →
      parseLLMRanking content results topN = Except.ok Option.none) ∧
    (∀ hasApiKey : Bool, results ≠ [] → hasApiKey = true →
      (parseLLMRanking (llmContent (some content)) results topN = Except.error () ∨
        parseLLMRanking (llmContent (some content)) results topN = Except.ok Option.none) →
      rerankWithLLM results topN hasApiKey (LLMOutcome.ok (some content)) =
        (results.take topN, false)) ∧
    (∀ l, parseLLMRanking content results topN = Except.ok (some l) →
      (∀ x ∈ l, x ∈ results) ∧
      (results.Nodup → l.Nodup ∧ l.length = min topN results.length) ∧
      (∀ run ranking, findBracketRun false content.data = some run →
        parseJsonNumArray run = some ranking →
        ∀ n ∈ ranking.take topN, ∀ h : 1 ≤ n ∧ n ≤ results.length,
          results.get ⟨n - 1, by omega⟩ ∈ l)) := by
  refine ⟨?_, ?_, ?_⟩
  · intro h
    simp [parseLLMRanking, h]
  · intro hasApiKey hres hkt hparse
    subst hkt
    cases results with
    | nil => exact absurd rfl hres
    | cons a rl =>
      rcases hparse with h | h <;>
        simp [rerankWithLLM, h]
  · intro l hl
    cases hm : findBracketRun false content.data with
    | none => simp [parseLLMRanking, hm] at hl
    | some run =>
      cases hj : parseJsonNumArray run with
      | none => simp [parseLLMRanking, hm, hj] at hl
      | some ranking =>
        simp only [parseLLMRanking, hm, hj, Except.ok.injEq, Option.some.injEq] at hl
        subst hl
        have hstep1sub : ∀ x ∈ (ranking.take topN).foldl (rankingPick results) [], x ∈ results := by
          intro x hx
          rcases foldl_rankingPick_mem_of_mem results (ranking.take topN) [] x hx with h | h
          · cases h
          · exact h
        have hstep1len : ((ranking.take topN).foldl (rankingPick results) []).length ≤ topN := by
          have h1 := foldl_rankingPick_length results (ranking.take topN) []
          have h2 : (ranking.take topN).length ≤ topN := by
            simpa using List.length_take_le topN ranking
          simpa using h1.trans (by simpa using h2)
        have hstep1nodup : ((ranking.take topN).foldl (rankingPick results) []).Nodup :=
          foldl_rankingPick_nodup results (ranking.take topN) [] List.nodup_nil
        obtain ⟨tfill, hfill⟩ :=
          foldl_rankingFill_prefix topN results ((ranking.take topN).foldl (rankingPick results) [])
        refine ⟨?_, ?_, ?_⟩
        · intro x hx
          have hx' := List.take_subset topN _ hx
          rcases foldl_rankingFill_mem_of_mem topN results _ x hx' with h | h
          · exact hstep1sub x h
          · exact h
        · intro hres
          constructor
          · exact ((List.take_sublist _ _).nodup
              (foldl_rankingFill_nodup topN results _ hstep1nodup))
          · rw [List.length_take]
            rw [foldl_rankingFill_length topN results _ hres hstep1len]
            rw [filter_not_mem_length results _ hres hstep1nodup hstep1sub]
            have hsl : ((ranking.take topN).foldl (rankingPick results) []).length ≤
                results.length :=
              (List.Nodup.subperm hstep1nodup hstep1sub).length_le
            omega
        · intro run' ranking' hrun' hrank' n hn hb
          have hrr : run' = run := (Option.some_inj.mp hrun').symm
          have hrk : ranking' = ranking :=
            (Option.some_inj.mp (hj.symm.trans (hrr ▸ hrank'))).symm
          rw [hrk] at hn
          have hpick := foldl_rankingPick_picks results (List.take topN ranking) [] n hn hb
          rw [hfill, List.take_append_eq_append_take,
            List.take_of_length_le hstep1len]
          exact List.mem_append_left _ hpick

/-- Witness for claim C6: the amended theorem applied to the response
`"[4, 2]"` over three candidates with `topN = 3`: the output keeps
candidate 2 (listed in the ranking), is duplicate-free, has full length
3, and candidate 20 — listed via index 2 — is in the output. -/
theorem claim_C6_witness :
    (∀ x ∈ [20, 10, 30], x ∈ [10, 20, 30]) ∧
      ([20, 10, 30] : List Nat).Nodup ∧
      ([20, 10, 30] : List Nat).length = min 3 ([10, 20, 30] : List Nat).length ∧
      (20 : Nat) ∈ [20, 10, 30] := by
  have h := (claim_C6_amended "[4, 2]" [10, 20, 30] 3).2.2 [20, 10, 30] (by rfl)
  refine ⟨h.1, (h.2.1 (by decide)).1, (h.2.1 (by decide)).2, ?_⟩
  have := h.2.2 (['4', ',', ' ', '2']) [4, 2] (by rfl) (by rfl) 2 (by decide)
    ⟨by decide, by decide⟩
  simpa using this

/-- Witness for claim C5: the amended theorem applied to a concrete
timeout — the list is the original top-2 slice and `timedOut = true`. -/
theorem claim_C5_witness :
    rerank [1, 2, 3] 2 RerankerType.geminiFlash true LLMOutcome.abortError = ([1, 2], true) := by
  have h := claim_C5_amended [1, 2, 3] 2 RerankerType.geminiFlash true LLMOutcome.abortError
  have h1 : (rerank [1, 2, 3] 2 RerankerType.geminiFlash true LLMOutcome.abortError).1 =
      [1, 2] := by
    simpa using h.1 (Or.inl rfl)
  have h2 : (rerank [1, 2, 3] 2 RerankerType.geminiFlash true LLMOutcome.abortError).2 =
      true :=
    h.2.2.mpr ⟨rfl, by decide, by decide, rfl⟩
  exact Prod.ext h1 h2

theorem jsMapGet_jsMapDelete {α β : Type} [DecidableEq α] (m : List (α × β)) (k : α) :
    jsMapGet (jsMapDelete m k) k = Option.none := by
  induction m with
  | nil => rfl
  | cons p rest ih =>
    by_cases h : p.1 = k
    · simpa [jsMapDelete, h] using ih
    · simpa [jsMapDelete, jsMapGet, h] using ih

theorem foldl_jsMapDelete_length_le {α β : Type} [DecidableEq α] :
    ∀ (t : List (α × β)) (m : List (α × β)),
      (t.foldl (fun s p => jsMapDelete s p.1) m).length ≤ m.length := by
  intro t
  induction t with
  | nil => exact fun m => le_refl _
  | cons p rest ih =>
    intro m
    exact (ih (jsMapDelete m p.1)).trans (jsMapDelete_length_le m p.1)

theorem ttlEvict_length {V : Type} (cfg : TTLConfig) (st : TTLState V)
    (h1 : 1 ≤ cfg.evictionCount) (h2 : st ≠ []) :
    (TTLCache.evict cfg st).length ≤ st.length - 1 := by
  have hperm := List.perm_insertionSort entryTsLE st
  rcases hsort : List.insertionSort entryTsLE st with _ | ⟨e, rest⟩
  · rw [hsort] at hperm
    exact absurd (hperm.symm.eq_nil) h2
  · rw [hsort] at hperm
    have hmem : e ∈ st := hperm.subset (List.mem_cons_self e rest)
    have hdel : (jsMapDelete st e.1).length < st.length := by
      apply List.length_filter_lt_length_iff_exists.2
      exact ⟨e, hmem, by simp⟩
    obtain ⟨n, hn⟩ : ∃ n, cfg.evictionCount = n + 1 := ⟨cfg.evictionCount - 1, by omega⟩
    unfold TTLCache.evict
    rw [hsort, hn]
    simp only [List.take_succ_cons, List.foldl_cons]
    exact le_trans (foldl_jsMapDelete_length_le (rest.take n) (jsMapDelete st e.1))
      (by omega)

theorem ttlSet_length {V : Type} (cfg : TTLConfig) (st : TTLState V) (now : Nat)
    (key : String) (value : V) (hmax : 1 ≤ cfg.maxSize) (hev : 1 ≤ cfg.evictionCount)
    (hst : st.length ≤ cfg.maxSize) :
    (TTLCache.set cfg st now key value).length ≤ cfg.maxSize := by
  unfold TTLCache.set
  by_cases hfull : st.length ≥ cfg.maxSize
  · rw [if_pos hfull]
    have hne : st ≠ [] := by
      intro h
      rw [h] at hfull
      simp at hfull
      omega
    have h1 := ttlEvict_length cfg st hev hne
    exact le_trans (jsMapSet_length_le (TTLCache.evict cfg st) key ⟨value, now⟩) (by omega)
  · rw [if_neg hfull]
    exact le_trans (jsMapSet_length_le st key ⟨value, now⟩) (by omega)

/-- Claim C7, counterexample.  With `maxSize = 0` (and `evictionCount =
1 ≥ 1`) a single `set` leaves the cache at size 1 > maxSize, so the
claimed bound "size never exceeds maxSize" fails for that
configuration. -/
theorem claim_C7_counterexample :
    ¬ ((TTLCache.applySets ⟨0, 100, 1⟩ [(5, "a", (42 : Nat))] ([] : TTLState Nat)).length ≤
      (⟨0, 100, 1⟩ : TTLConfig).maxSize) := by
  decide

/-- Claim C7 as amended: with `maxSize ≥ 1` and `evictionCount ≥ 1`, a
`set` at size ≥ maxSize first evicts the `evictionCount` entries with
the oldest insertion timestamps (all entries when fewer) and then
inserts with the current timestamp; starting from any state within
bounds, any sequence of `set` operations keeps the size ≤ maxSize; and
after `set(k, v)` at time `now`, a `get(k)` at time `now'` returns `v`
when `now' - now ≤ ttlMs` and otherwise deletes the entry and returns
nothing. -/
theorem claim_C7_amended {V : Type} (cfg : TTLConfig) (st : TTLState V) (now : Nat)
    (key : String) (value : V) :
    (cfg.maxSize ≤ st.length →
      TTLCache.set cfg st now key value =
        jsMapSet (TTLCache.evict cfg st) key ⟨value, now⟩) ∧
    (st.length < cfg.maxSize →
      TTLCache.set cfg st now key value = jsMapSet st key ⟨value, now⟩) ∧
    (∀ now', (TTLCache.get cfg (TTLCache.set cfg st now key value) now' key).1 =
      if now' - now ≤ cfg.ttlMs then some value else Option.none) ∧
    (∀ now', cfg.ttlMs < now' - now →
      jsMapGet (TTLCache.get cfg (TTLCache.set cfg st now key value) now' key).2 key =
        Option.none) ∧
    (1 ≤ cfg.maxSize → 1 ≤ cfg.evictionCount → st.length ≤ cfg.maxSize →
      ∀ ops : List (Nat × String × V),
        (TTLCache.applySets cfg ops st).length ≤ cfg.maxSize) := by
  refine ⟨?_, ?_, ?_, ?_, ?_⟩
  · intro h
    unfold TTLCache.set
    rw [if_pos h]
  · intro h
    unfold TTLCache.set
    rw [if_neg (by omega)]
  · intro now'
    have hget := jsMapGet_jsMapSet_self
      (if st.length ≥ cfg.maxSize then TTLCache.evict cfg st else st) key
      (⟨value, now⟩ : CacheEntry V)
    unfold TTLCache.get TTLCache.set
    rw [hget]
    by_cases h : now' - now ≤ cfg.ttlMs
    · rw [if_pos h]
      simp only []
      rw [if_neg (by simpa using h)]
    · rw [if_neg h]
      simp only []
      rw [if_pos (by omega)]
  · intro now' h
    have hget := jsMapGet_jsMapSet_self
      (if st.length ≥ cfg.maxSize then TTLCache.evict cfg st else st) key
      (⟨value, now⟩ : CacheEntry V)
    unfold TTLCache.get TTLCache.set
    rw [hget]
    simp only []
    rw [if_pos (by omega)]
    exact jsMapGet_jsMapDelete _ key
  · intro hmax hev hst ops
    induction ops generalizing st with
    | nil => exact hst
    | cons op rest ih =>
      exact ih _ (ttlSet_length cfg st op.1 op.2.1 op.2.2 hmax hev hst)

/-- Witness for claim C7: the amended theorem applied to a one-entry
cache with `maxSize = 2`, `ttlMs = 100`: a fresh read at `now' = 105`
returns the value, an expired read at `now' = 300` returns nothing, and
three further inserts keep the size ≤ 2. -/
theorem claim_C7_witness :
    (TTLCache.get ⟨2, 100, 1⟩ (TTLCache.set ⟨2, 100, 1⟩ ([] : TTLState Nat) 5 "a" 42) 105
      "a").1 = some 42 ∧
    (TTLCache.get ⟨2, 100, 1⟩ (TTLCache.set ⟨2, 100, 1⟩ ([] : TTLState Nat) 5 "a" 42) 300
      "a").1 = Option.none ∧
    (TTLCache.applySets ⟨2, 100, 1⟩ [(6, "b", 1), (7, "c", 2), (8, "d", 3)]
      (TTLCache.set ⟨2, 100, 1⟩ ([] : TTLState Nat) 5 "a" 42)).length ≤ 2 := by
  have h := claim_C7_amended (V := Nat) ⟨2, 100, 1⟩ [] 5 "a" 42
  refine ⟨?_, ?_, ?_⟩
  · rw [h.2.2.1 105]
    decide
  · rw [h.2.2.1 300]
    decide
  · have hsz := h.2.2.2.2 (by decide) (by decide) (by decide)
      [(6, "b", 1), (7, "c", 2), (8, "d", 3)]
    have hone : TTLCache.applySets ⟨2, 100, 1⟩
        [(5, "a", (42 : Nat)), (6, "b", 1), (7, "c", 2), (8, "d", 3)] ([] : TTLState Nat) =
        TTLCache.applySets ⟨2, 100, 1⟩ [(6, "b", 1), (7, "c", 2), (8, "d", 3)]
          (TTLCache.set ⟨2, 100, 1⟩ ([] : TTLState Nat) 5 "a" 42) := rfl
    rw [← hone]
    rw [hone]
    exact hsz

theorem callJinaAux_succ (attempts : Nat → JinaAttempt) (T M fuel attempt : Nat) :
    callJinaAux attempts T M (fuel + 1) attempt =
      if T ≤ (attempts attempt).durationMs then (.abortError, [])
      else if (attempts attempt).status = 429 ∧ attempt < M then
        ((callJinaAux attempts T M fuel (attempt + 1)).1,
          min (3000 * 2 ^ attempt) 60000 :: (callJinaAux attempts T M fuel (attempt + 1)).2)
      else if !jsResponseOk (attempts attempt).status then
        (.apiError (attempts attempt).status, [])
      else (.success ((List.insertionSort idxLE (attempts attempt).data).map Prod.snd), []) :=
  rfl

theorem callJinaAux_spec (attempts : Nat → JinaAttempt) (T M : Nat) :
    ∀ fuel attempt, attempt + fuel = M + 1 →
      ((callJinaAux attempts T M fuel attempt).2.length ≤ M - attempt) ∧
      (∀ i, ∀ h : i < (callJinaAux attempts T M fuel attempt).2.length,
        (callJinaAux attempts T M fuel attempt).2.get ⟨i, h⟩ =
          min (3000 * 2 ^ (attempt + i)) 60000 ∧
        (attempts (attempt + i)).status = 429 ∧ (attempts (attempt + i)).durationMs < T) ∧
      ((∀ j, attempt ≤ j → j ≤ M → (attempts j).durationMs < T) →
        (callJinaAux attempts T M fuel attempt).1 ≠ JinaOutcome.abortError) ∧
      (∀ i, i < fuel →
        (∀ j, j < i → (attempts (attempt + j)).status = 429 ∧
          (attempts (attempt + j)).durationMs < T ∧ attempt + j < M) →
        (attempts (attempt + i)).durationMs < T →
        ¬(jsResponseOk (attempts (attempt + i)).status = true) →
        ((attempts (attempt + i)).status ≠ 429 ∨ ¬(attempt + i < M)) →
        (callJinaAux attempts T M fuel attempt).1 =
          JinaOutcome.apiError (attempts (attempt + i)).status ∧
          (callJinaAux attempts T M fuel attempt).2.length = i) ∧
      (∀ i, i < fuel →
        (∀ j, j < i → (attempts (attempt + j)).status = 429 ∧
          (attempts (attempt + j)).durationMs < T ∧ attempt + j < M) →
        T ≤ (attempts (attempt + i)).durationMs →
        (callJinaAux attempts T M fuel attempt).1 = JinaOutcome.abortError ∧
          (callJinaAux attempts T M fuel attempt).2.length = i) := by
  intro fuel
  induction fuel with
  | zero =>
    intro attempt hI
    refine ⟨by simp [callJinaAux], ?_, ?_, ?_, ?_⟩
    · intro i h
      simp [callJinaAux] at h
    · intro _
      simp [callJinaAux]
    · intro i hi
      omega
    · intro i hi
      omega
  | succ fuel ih =>
    intro attempt hI
    have hattempt : attempt ≤ M := by omega
    by_cases h1 : T ≤ (attempts attempt).durationMs
    · rw [callJinaAux_succ, if_pos h1]
      refine ⟨by simp, ?_, ?_, ?_, ?_⟩
      · intro i h
        simp at h
      · intro hall
        exact absurd (hall attempt le_rfl hattempt) (by omega)
      · intro i _ hprev hdur _ _
        rcases Nat.eq_zero_or_pos i with rfl | hpos
        · rw [Nat.add_zero] at hdur
          omega
        · have h5 := (hprev 0 hpos).2.1
          rw [Nat.add_zero] at h5
          omega
      · intro i _ hprev hdur
        rcases Nat.eq_zero_or_pos i with rfl | hpos
        · exact ⟨rfl, rfl⟩
        · have h5 := (hprev 0 hpos).2.1
          rw [Nat.add_zero] at h5
          omega
    · by_cases h2 : (attempts attempt).status = 429 ∧ attempt < M
      · rw [callJinaAux_succ, if_neg h1, if_pos h2]
        have ihr := ih (attempt + 1) (by omega)
        refine ⟨?_, ?_, ?_, ?_, ?_⟩
        · simp only [List.length_cons]
          have := ihr.1
          omega
        · intro i h
          cases i with
          | zero =>
            exact ⟨rfl, h2.1, by rw [Nat.add_zero]; omega⟩
          | succ i' =>
            simp only [List.length_cons, Nat.succ_lt_succ_iff] at h
            have hstep := ihr.2.1 i' h
            have heq : attempt + (i' + 1) = attempt + 1 + i' := by omega
            rw [heq]
            simpa only [List.get_cons_succ] using hstep
        · intro hall
          exact ihr.2.2.1 (fun j hj1 hj2 => hall j (by omega) hj2)
        · intro i hi hprev hdur hok hne
          cases i with
          | zero =>
            rw [Nat.add_zero] at hne
            rcases hne with hne | hne
            · exact absurd h2.1 hne
            · exact absurd h2.2 hne
          | succ i' =>
            have heq : attempt + (i' + 1) = attempt + 1 + i' := by omega
            rw [heq] at hdur hok hne ⊢
            have hres := ihr.2.2.2.1 i' (by omega)
              (fun j hj => by
                have hpj := hprev (j + 1) (by omega)
                have heqj : attempt + (j + 1) = attempt + 1 + j := by omega
                rw [heqj] at hpj
                exact ⟨hpj.1, hpj.2.1, by omega⟩)
              hdur hok
              (by
                rcases hne with hne | hne
                · exact Or.inl hne
                · exact Or.inr (by omega))
            refine ⟨hres.1, ?_⟩
            simp only [List.length_cons, hres.2]
        · intro i hi hprev hdur
          cases i with
          | zero =>
            rw [Nat.add_zero] at hdur
            omega
          | succ i' =>
            have heq : attempt + (i' + 1) = attempt + 1 + i' := by omega
            rw [heq] at hdur
            have hres := ihr.2.2.2.2 i' (by omega)
              (fun j hj => by
                have hpj := hprev (j + 1) (by omega)
                have heqj : attempt + (j + 1) = attempt + 1 + j := by omega
                rw [heqj] at hpj
                exact ⟨hpj.1, hpj.2.1, by omega⟩)
              hdur
            refine ⟨hres.1, ?_⟩
            simp only [List.length_cons, hres.2]
      · by_cases h3 : jsResponseOk (attempts attempt).status = true
        · rw [callJinaAux_succ, if_neg h1, if_neg h2, if_neg (by simp [h3])]
          refine ⟨by simp, ?_, ?_, ?_, ?_⟩
          · intro i h
            simp at h
          · intro _
            simp
          · intro i hi hprev hdur hok hne
            rcases Nat.eq_zero_or_pos i with rfl | hpos
            · rw [Nat.add_zero] at hok
              exact absurd h3 hok
            · have h5 := (hprev 0 hpos).1
              rw [Nat.add_zero] at h5
              have h4 := (hprev 0 hpos).2.2
              rw [Nat.add_zero] at h4
              exact absurd ⟨h5, h4⟩ h2
          · intro i hi hprev hdur
            rcases Nat.eq_zero_or_pos i with rfl | hpos
            · rw [Nat.add_zero] at hdur
              omega
            · have h5 := (hprev 0 hpos).1
              rw [Nat.add_zero] at h5
              have h4 := (hprev 0 hpos).2.2
              rw [Nat.add_zero] at h4
              exact absurd ⟨h5, h4⟩ h2
        · rw [callJinaAux_succ, if_neg h1, if_neg h2, if_pos (by simp [h3])]
          refine ⟨by simp, ?_, ?_, ?_, ?_⟩
          · intro i h
            simp at h
          · intro _
            simp
          · intro i hi hprev hdur hok hne
            rcases Nat.eq_zero_or_pos i with rfl | hpos
            · exact ⟨rfl, rfl⟩
            · have h5 := (hprev 0 hpos).1
              rw [Nat.add_zero] at h5
              have h4 := (hprev 0 hpos).2.2
              rw [Nat.add_zero] at h4
              exact absurd ⟨h5, h4⟩ h2
          · intro i hi hprev hdur
            rcases Nat.eq_zero_or_pos i with rfl | hpos
            · rw [Nat.add_zero] at hdur
              omega
            · have h5 := (hprev 0 hpos).1
              rw [Nat.add_zero] at h5
              have h4 := (hprev 0 hpos).2.2
              rw [Nat.add_zero] at h4
              exact absurd ⟨h5, h4⟩ h2

/-- Claim C8: the embedding back-end call retries only on HTTP 429,
waiting `min(3000·2^i, 60000)` ms before the `i`-th retry, for at most 8
retries; any other non-2xx response raises an error immediately with no
further retries; and the 15-second deadline governs one attempt — a call
whose every attempt stays below 15 s is never aborted, however long the
whole series takes, while a single attempt reaching 15 s aborts it. -/
theorem claim_C8 (attempts : Nat → JinaAttempt) :
    ((callJina attempts).2.length ≤ 8) ∧
    (∀ i, ∀ h : i < (callJina attempts).2.length,
      (callJina attempts).2.get ⟨i, h⟩ = min (3000 * 2 ^ i) 60000 ∧
        (attempts i).status = 429 ∧ (attempts i).durationMs < 15000) ∧
    (∀ i, i ≤ 8 →
      (∀ j, j < i → (attempts j).status = 429 ∧ (attempts j).durationMs < 15000) →
      (attempts i).durationMs < 15000 →
      ¬(jsResponseOk (attempts i).status = true) →
      (attempts i).status ≠ 429 →
      (callJina attempts).1 = JinaOutcome.apiError (attempts i).status ∧
        (callJina attempts).2.length = i) ∧
    ((∀ j, j ≤ 8 → (attempts j).durationMs < 15000) →
      (callJina attempts).1 ≠ JinaOutcome.abortError) ∧
    (∀ i, i ≤ 8 →
      (∀ j, j < i → (attempts j).status = 429 ∧ (attempts j).durationMs < 15000) →
      15000 ≤ (attempts i).durationMs →
      (callJina attempts).1 = JinaOutcome.abortError ∧
        (callJina attempts).2.length = i) := by
  have hspec := callJinaAux_spec attempts 15000 8 9 0 (by omega)
  have hcall : callJina attempts = callJinaAux attempts 15000 8 9 0 := rfl
  rw [hcall]
  refine ⟨by simpa using hspec.1, ?_, ?_, ?_, ?_⟩
  · intro i h
    have h' := hspec.2.1 i h
    rw [Nat.zero_add] at h'
    exact h'
  · intro i hi hprev hdur hok hne
    have h' := hspec.2.2.2.1 i (by omega)
      (fun j hj => by
        have hp := hprev j hj
        rw [Nat.zero_add]
        exact ⟨hp.1, hp.2, by omega⟩)
      (by rw [Nat.zero_add]; exact hdur)
      (by rw [Nat.zero_add]; exact hok)
      (by rw [Nat.zero_add]; exact Or.inl hne)
    rw [Nat.zero_add] at h'
    exact h'
  · intro hall
    exact hspec.2.2.1 (fun j _ hj => hall j hj)
  · intro i hi hprev hdur
    have h' := hspec.2.2.2.2 i (by omega)
      (fun j hj => by
        have hp := hprev j hj
        rw [Nat.zero_add]
        exact ⟨hp.1, hp.2, by omega⟩)
      (by rw [Nat.zero_add]; exact hdur)
    exact h'

/-- Witness for claim C8: a first attempt answering HTTP 500 within its
deadline fails fast — `apiError 500`, no waits — and the retry-count
bound holds. -/
theorem claim_C8_witness :
    (callJina (fun _ => ⟨10000, 500, []⟩)).1 = JinaOutcome.apiError 500 ∧
      (callJina (fun _ => ⟨10000, 500, []⟩)).2.length = 0 ∧
      (callJina (fun _ => ⟨10000, 500, []⟩)).2.length ≤ 8 := by
  have h := claim_C8 (fun _ => ⟨10000, 500, []⟩)
  have h3 := h.2.2.1 0 (by omega) (fun j hj => absurd hj (by omega)) (by decide)
    (by decide) (by decide)
  exact ⟨h3.1, h3.2, h.1⟩

theorem mergeWithRRFGeneric_scores (semanticResults keywordResults : List MItem)
    (getKey : MItem → Nat) (getKwScore : MItem → Option ℚ)
    (onMerge : MItem → MItem → MItem) (t : MItem)
    (ht : t ∈ mergeWithRRFGeneric semanticResults keywordResults getKey getKwScore onMerge) :
    t.fusedScore = calculateFusedScore t.semanticRank.isSome t.keywordRank.isSome
      (t.semanticScore.getD 0) t.bm25Score t.keywordScore ∧
    t.rrfScore = calculateRRFScore [t.semanticRank, t.keywordRank] ∧
    t.score = some t.fusedScore := by
  unfold mergeWithRRFGeneric at ht
  have hperm := List.perm_insertionSort fusionLE
    (((fusionAddKeyword getKey getKwScore onMerge
      (fusionSeedSemantic getKey semanticResults) keywordResults).map Prod.snd).map
        applyFusionScores)
  have ht' := hperm.mem_iff.1 ht
  obtain ⟨u, _, hu⟩ := List.mem_map.1 ht'
  subst hu
  refine ⟨?_, ?_, ?_⟩ <;> simp [applyFusionScores]

/-- Claim C1: in the hybrid merge, an item found by both engines has
fused score `0.8 · semanticScore + 0.3 · normalized_bm25(bm25Score)`
with `normalized_bm25(s) = s/(s+8)`; a semantic-only item keeps its
semantic score; a keyword-only item (with a BM25 score) gets
`normalized_bm25(bm25Score)`. -/
theorem claim_C1 (semanticResults keywordResults : List MItem) (getKey : MItem → Nat)
    (getKwScore : MItem → Option ℚ) (onMerge : MItem → MItem → MItem) (t : MItem)
    (ht : t ∈ mergeWithRRFGeneric semanticResults keywordResults getKey getKwScore onMerge) :
    (∀ s b, t.semanticRank.isSome = true → t.keywordRank.isSome = true →
      t.semanticScore = some s → t.bm25Score = some b →
      t.fusedScore = SEMANTIC_WEIGHT * s + KEYWORD_WEIGHT * normalizeBM25Score b BM25_NORM_K) ∧
    (∀ s, t.semanticRank.isSome = true → t.keywordRank = Option.none →
      t.semanticScore = some s → t.fusedScore = s) ∧
    (∀ b, t.semanticRank = Option.none → t.keywordRank.isSome = true →
      t.bm25Score = some b → t.fusedScore = normalizeBM25Score b BM25_NORM_K) := by
  have h := (mergeWithRRFGeneric_scores semanticResults keywordResults getKey getKwScore
    onMerge t ht).1
  refine ⟨?_, ?_, ?_⟩
  · intro s b hsem hkw hss hbb
    rw [h, hsem, hkw, hss, hbb]
    simp [calculateFusedScore]
  · intro s hsem hkw hss
    rw [h, hsem, hkw, hss]
    simp [calculateFusedScore]
  · intro b hsem hkw hbb
    rw [h, hsem, hkw, hbb]
    simp [calculateFusedScore]

/-- Witness for claim C1: key 1 found by both engines with semantic
score `1/2` and BM25 score 8; the merged item carries fused score
`0.8 · (1/2) + 0.3 · (8/(8+8)) = 11/20`. -/
theorem claim_C1_witness :
    c1Merged ∈ mergeWithRRFGeneric [c1Sem] [c1Kw] (·.key) (·.keywordScore) onMergeBooks ∧
      c1Merged.fusedScore =
        SEMANTIC_WEIGHT * (1/2) + KEYWORD_WEIGHT * normalizeBM25Score 8 BM25_NORM_K := by
  have hmem : mergeWithRRFGeneric [c1Sem] [c1Kw] (·.key) (·.keywordScore) onMergeBooks =
      [c1Merged] := by
    norm_num [mergeWithRRFGeneric, fusionSeedSemantic, fusionAddKeyword, jsMapSet, jsMapGet,
      applyFusionScores, calculateFusedScore, calculateRRFScore, onMergeBooks, c1Sem, c1Kw,
      c1Merged, SEMANTIC_WEIGHT, KEYWORD_WEIGHT, RRF_K, BM25_NORM_K, normalizeBM25Score,
      List.insertionSort, List.orderedInsert]
  have hm : c1Merged ∈ mergeWithRRFGeneric [c1Sem] [c1Kw] (·.key) (·.keywordScore)
      onMergeBooks := by
    rw [hmem]
    exact List.mem_singleton_self _
  exact ⟨hm, (claim_C1 [c1Sem] [c1Kw] (·.key) (·.keywordScore) onMergeBooks c1Merged hm).1
    (1/2) 8 rfl rfl rfl rfl⟩

theorem distributeStep_books (unified : List UnifiedRefineResult) (books : List RankedResult)
    (ayahs : List AyahRankedResult) (hadiths : List HadithRankedResult)
    (limits : RefineLimits) (st : RerankedTriple) (n : Nat) :
    ∀ b ∈ (distributeStep unified books ayahs hadiths limits st n).books,
      b ∈ st.books ∨
        ∃ hdoc : n - 1 < unified.length,
          (unified.get ⟨n - 1, hdoc⟩).type = URType.book ∧
          ∃ q : Option ℚ,
            b = { books.getD (unified.get ⟨n - 1, hdoc⟩).index default with
                    semanticScore := q } := by
  intro b hb
  unfold distributeStep at hb
  split at hb
  · rename_i h
    have hdoc : n - 1 < unified.length := by omega
    rcases htype : (unified.get ⟨n - 1, hdoc⟩).type
    · simp only [htype] at hb
      split at hb
      · rcases List.mem_append.1 hb with h' | h'
        · exact Or.inl h'
        · simp only [List.mem_singleton] at h'
          exact Or.inr ⟨hdoc, htype, some _, h'⟩
      · exact Or.inl hb
    · simp only [htype] at hb
      split at hb
      · exact Or.inl hb
      · exact Or.inl hb
    · simp only [htype] at hb
      split at hb
      · exact Or.inl hb
      · exact Or.inl hb
  · exact Or.inl hb

theorem distributeStep_ayahs (unified : List UnifiedRefineResult) (books : List RankedResult)
    (ayahs : List AyahRankedResult) (hadiths : List HadithRankedResult)
    (limits : RefineLimits) (st : RerankedTriple) (n : Nat) :
    ∀ a ∈ (distributeStep unified books ayahs hadiths limits st n).ayahs,
      a ∈ st.ayahs ∨
        ∃ hdoc : n - 1 < unified.length,
          (unified.get ⟨n - 1, hdoc⟩).type = URType.ayah ∧
          ∃ r : Option Nat, ∃ q : ℚ,
            a = { ayahs.getD (unified.get ⟨n - 1, hdoc⟩).index default with
                    rank := r, score := q } := by
  intro a ha
  unfold distributeStep at ha
  split at ha
  · rename_i h
    have hdoc : n - 1 < unified.length := by omega
    rcases htype : (unified.get ⟨n - 1, hdoc⟩).type
    · simp only [htype] at ha
      split at ha
      · exact Or.inl ha
      · exact Or.inl ha
    · simp only [htype] at ha
      split at ha
      · rcases List.mem_append.1 ha with h' | h'
        · exact Or.inl h'
        · simp only [List.mem_singleton] at h'
          exact Or.inr ⟨hdoc, htype, some _, _, h'⟩
      · exact Or.inl ha
    · simp only [htype] at ha
      split at ha
      · exact Or.inl ha
      · exact Or.inl ha
  · exact Or.inl ha

theorem distributeStep_hadiths (unified : List UnifiedRefineResult)
    (books : List RankedResult) (ayahs : List AyahRankedResult)
    (hadiths : List HadithRankedResult) (limits : RefineLimits) (st : RerankedTriple)
    (n : Nat) :
    ∀ x ∈ (distributeStep unified books ayahs hadiths limits st n).hadiths,
      x ∈ st.hadiths ∨
        ∃ hdoc : n - 1 < unified.length,
          (unified.get ⟨n - 1, hdoc⟩).type = URType.hadith ∧
          ∃ r : Option Nat, ∃ q : ℚ,
            x = { hadiths.getD (unified.get ⟨n - 1, hdoc⟩).index default with
                    rank := r, score := q } := by
  intro x hx
  unfold distributeStep at hx
  split at hx
  · rename_i h
    have hdoc : n - 1 < unified.length := by omega
    rcases htype : (unified.get ⟨n - 1, hdoc⟩).type
    · simp only [htype] at hx
      split at hx
      · exact Or.inl hx
      · exact Or.inl hx
    · simp only [htype] at hx
      split at hx
      · exact Or.inl hx
      · exact Or.inl hx
    · simp only [htype] at hx
      split at hx
      · rcases List.mem_append.1 hx with h' | h'
        · exact Or.inl h'
        · simp only [List.mem_singleton] at h'
          exact Or.inr ⟨hdoc, htype, some _, _, h'⟩
      · exact Or.inl hx
  · exact Or.inl hx

theorem foldl_distributeStep_books (unified : List UnifiedRefineResult)
    (books : List RankedResult) (ayahs : List AyahRankedResult)
    (hadiths : List HadithRankedResult) (limits : RefineLimits) :
    ∀ (ranking : List Nat) (st0 : RerankedTriple),
      ∀ b ∈ (ranking.foldl (distributeStep unified books ayahs hadiths limits) st0).books,
        b ∈ st0.books ∨
          ∃ docNum ∈ ranking, ∃ hdoc : docNum - 1 < unified.length,
            (unified.get ⟨docNum - 1, hdoc⟩).type = URType.book ∧
            ∃ q : Option ℚ,
              b = { books.getD (unified.get ⟨docNum - 1, hdoc⟩).index default with
                      semanticScore := q } := by
  intro ranking
  induction ranking with
  | nil => exact fun st0 b hb => Or.inl hb
  | cons n rest ih =>
    intro st0 b hb
    rw [List.foldl_cons] at hb
    rcases ih _ b hb with h | ⟨m, hm, hdoc, ht, q, hq⟩
    · rcases distributeStep_books unified books ayahs hadiths limits st0 n b h with
        h' | ⟨hdoc, ht, q, hq⟩
      · exact Or.inl h'
      · exact Or.inr ⟨n, List.mem_cons_self n rest, hdoc, ht, q, hq⟩
    · exact Or.inr ⟨m, List.mem_cons_of_mem _ hm, hdoc, ht, q, hq⟩

theorem foldl_distributeStep_ayahs (unified : List UnifiedRefineResult)
    (books : List RankedResult) (ayahs : List AyahRankedResult)
    (hadiths : List HadithRankedResult) (limits : RefineLimits) :
    ∀ (ranking : List Nat) (st0 : RerankedTriple),
      ∀ a ∈ (ranking.foldl (distributeStep unified books ayahs hadiths limits) st0).ayahs,
        a ∈ st0.ayahs ∨
          ∃ docNum ∈ ranking, ∃ hdoc : docNum - 1 < unified.length,
            (unified.get ⟨docNum - 1, hdoc⟩).type = URType.ayah ∧
            ∃ r : Option Nat, ∃ q : ℚ,
              a = { ayahs.getD (unified.get ⟨docNum - 1, hdoc⟩).index default with
                      rank := r, score := q } := by
  intro ranking
  induction ranking with
  | nil => exact fun st0 a ha => Or.inl ha
  | cons n rest ih =>
    intro st0 a ha
    rw [List.foldl_cons] at ha
    rcases ih _ a ha with h | ⟨m, hm, hdoc, ht, r, q, hq⟩
    · rcases distributeStep_ayahs unified books ayahs hadiths limits st0 n a h with
        h' | ⟨hdoc, ht, r, q, hq⟩
      · exact Or.inl h'
      · exact Or.inr ⟨n, List.mem_cons_self n rest, hdoc, ht, r, q, hq⟩
    · exact Or.inr ⟨m, List.mem_cons_of_mem _ hm, hdoc, ht, r, q, hq⟩

theorem foldl_distributeStep_hadiths (unified : List UnifiedRefineResult)
    (books : List RankedResult) (ayahs : List AyahRankedResult)
    (hadiths : List HadithRankedResult) (limits : RefineLimits) :
    ∀ (ranking : List Nat) (st0 : RerankedTriple),
      ∀ x ∈ (ranking.foldl (distributeStep unified books ayahs hadiths limits) st0).hadiths,
        x ∈ st0.hadiths ∨
          ∃ docNum ∈ ranking, ∃ hdoc : docNum - 1 < unified.length,
            (unified.get ⟨docNum - 1, hdoc⟩).type = URType.hadith ∧
            ∃ r : Option Nat, ∃ q : ℚ,
              x = { hadiths.getD (unified.get ⟨docNum - 1, hdoc⟩).index default with
                      rank := r, score := q } := by
  intro ranking
  induction ranking with
  | nil => exact fun st0 x hx => Or.inl hx
  | cons n rest ih =>
    intro st0 x hx
    rw [List.foldl_cons] at hx
    rcases ih _ x hx with h | ⟨m, hm, hdoc, ht, r, q, hq⟩
    · rcases distributeStep_hadiths unified books ayahs hadiths limits st0 n x h with
        h' | ⟨hdoc, ht, r, q, hq⟩
      · exact Or.inl h'
      · exact Or.inr ⟨n, List.mem_cons_self n rest, hdoc, ht, r, q, hq⟩
    · exact Or.inr ⟨m, List.mem_cons_of_mem _ hm, hdoc, ht, r, q, hq⟩

theorem rerankUnifiedRefine_ok (ayahs : List AyahRankedResult)
    (hadiths : List HadithRankedResult) (books : List RankedResult)
    (bookMeta : String → Option (String × String)) (limits : RefineLimits)
    (reranker : RerankerType) (c : Option String) (run : List Char) (ranking : List Nat)
    (hrk : reranker ≠ RerankerType.none)
    (h3 : 3 ≤ (buildUnified books ayahs hadiths bookMeta limits).length)
    (hrun : findBracketRun true (llmContent c).data = some run)
    (hparse : parseJsonNumArray run = some ranking) :
    rerankUnifiedRefine ayahs hadiths books bookMeta limits reranker (LLMOutcome.ok c) =
      ⟨(distributeRanked ranking (buildUnified books ayahs hadiths bookMeta limits)
          books ayahs hadiths limits).books,
        (distributeRanked ranking (buildUnified books ayahs hadiths bookMeta limits)
          books ayahs hadiths limits).ayahs,
        (distributeRanked ranking (buildUnified books ayahs hadiths bookMeta limits)
          books ayahs hadiths limits).hadiths, false⟩ := by
  simp only [rerankUnifiedRefine]
  rw [if_neg hrk,
    if_neg (by omega : ¬ (buildUnified books ayahs hadiths bookMeta limits).length < 3)]
  simp only [hrun, hparse]

/-- Claim C10: in the unified refine reranker, with a reranker selected,
at least 3 candidates packed, and a well-formed JSON index-array reply,
`timedOut = false` and every returned book/ayah/hadith stems from some
index listed in the reply (omitted candidates are dropped, not
appended); in particular the reply `[]` yields empty books, ayahs and
hadiths with `timedOut = false` even on non-empty candidate lists. -/
theorem claim_C10 (ayahs : List AyahRankedResult) (hadiths : List HadithRankedResult)
    (books : List RankedResult) (bookMeta : String → Option (String × String))
    (limits : RefineLimits) (reranker : RerankerType) (content : String) :
    (∀ run ranking,
      reranker ≠ RerankerType.none →
      3 ≤ (buildUnified books ayahs hadiths bookMeta limits).length →
      findBracketRun true (llmContent (some content)).data = some run →
      parseJsonNumArray run = some ranking →
      (rerankUnifiedRefine ayahs hadiths books bookMeta limits reranker
          (LLMOutcome.ok (some content))).timedOut = false ∧
      (∀ b ∈ (rerankUnifiedRefine ayahs hadiths books bookMeta limits reranker
          (LLMOutcome.ok (some content))).books,
        ∃ docNum ∈ ranking,
          ∃ hdoc : docNum - 1 < (buildUnified books ayahs hadiths bookMeta limits).length,
            ((buildUnified books ayahs hadiths bookMeta limits).get
                ⟨docNum - 1, hdoc⟩).type = URType.book ∧
            ∃ q : Option ℚ,
              b = { books.getD ((buildUnified books ayahs hadiths bookMeta limits).get
                      ⟨docNum - 1, hdoc⟩).index default with semanticScore := q }) ∧
      (∀ a ∈ (rerankUnifiedRefine ayahs hadiths books bookMeta limits reranker
          (LLMOutcome.ok (some content))).ayahs,
        ∃ docNum ∈ ranking,
          ∃ hdoc : docNum - 1 < (buildUnified books ayahs hadiths bookMeta limits).length,
            ((buildUnified books ayahs hadiths bookMeta limits).get
                ⟨docNum - 1, hdoc⟩).type = URType.ayah ∧
            ∃ r : Option Nat, ∃ q : ℚ,
              a = { ayahs.getD ((buildUnified books ayahs hadiths bookMeta limits).get
                      ⟨docNum - 1, hdoc⟩).index default with rank := r, score := q }) ∧
      (∀ x ∈ (rerankUnifiedRefine ayahs hadiths books bookMeta limits reranker
          (LLMOutcome.ok (some content))).hadiths,
        ∃ docNum ∈ ranking,
          ∃ hdoc : docNum - 1 < (buildUnified books ayahs hadiths bookMeta limits).length,
            ((buildUnified books ayahs hadiths bookMeta limits).get
                ⟨docNum - 1, hdoc⟩).type = URType.hadith ∧
            ∃ r : Option Nat, ∃ q : ℚ,
              x = { hadiths.getD ((buildUnified books ayahs hadiths bookMeta limits).get
                      ⟨docNum - 1, hdoc⟩).index default with rank := r, score := q })) ∧
    (reranker ≠ RerankerType.none →
      3 ≤ (buildUnified books ayahs hadiths bookMeta limits).length →
      rerankUnifiedRefine ayahs hadiths books bookMeta limits reranker
        (LLMOutcome.ok (some "[]")) = ⟨[], [], [], false⟩) := by
  constructor
  · intro run ranking hrk h3 hrun hparse
    have hout := rerankUnifiedRefine_ok ayahs hadiths books bookMeta limits reranker
      (some content) run ranking hrk h3 hrun hparse
    rw [hout]
    refine ⟨rfl, ?_, ?_, ?_⟩
    · intro b hb
      rcases foldl_distributeStep_books (buildUnified books ayahs hadiths bookMeta limits)
        books ayahs hadiths limits ranking ⟨[], [], []⟩ b hb with h | h
      · cases h
      · exact h
    · intro a ha
      rcases foldl_distributeStep_ayahs (buildUnified books ayahs hadiths bookMeta limits)
        books ayahs hadiths limits ranking ⟨[], [], []⟩ a ha with h | h
      · cases h
      · exact h
    · intro x hx
      rcases foldl_distributeStep_hadiths (buildUnified books ayahs hadiths bookMeta limits)
        books ayahs hadiths limits ranking ⟨[], [], []⟩ x hx with h | h
      · cases h
      · exact h
  · intro hrk h3
    exact (rerankUnifiedRefine_ok ayahs hadiths books bookMeta limits reranker
      (some "[]") [] [] hrk h3 rfl rfl).trans rfl

/-- Witness for claim C10: one candidate of each domain with the
`gemini-flash` reranker and the valid reply `[]` — all three output
lists are empty with `timedOut = false`. -/
theorem claim_C10_witness :
    rerankUnifiedRefine [c10Ayah] [c10Hadith] [c10Book] (fun _ => Option.none) ⟨20, 12, 15⟩
      RerankerType.geminiFlash (LLMOutcome.ok (some "[]")) = ⟨[], [], [], false⟩ :=
  (claim_C10 [c10Ayah] [c10Hadith] [c10Book] (fun _ => Option.none) ⟨20, 12, 15⟩
    RerankerType.geminiFlash "[]").2 (by decide) (by decide)

theorem chain'_orderedInsert {α : Type} (r : α → α → Prop) [DecidableRel r]
    (total : ∀ a b, r a b ∨ r b a) (a : α) :
    ∀ l, List.Chain' r l → List.Chain' r (List.orderedInsert r a l) := by
  intro l
  induction l with
  | nil => intro _; simp [List.orderedInsert]
  | cons b l ih =>
    intro hc
    rw [List.orderedInsert]
    split
    · rw [List.chain'_cons]
      exact ⟨by assumption, hc⟩
    · rename_i hnab
      have hba : r b a := (total a b).resolve_left hnab
      rw [List.chain'_cons']
      refine ⟨?_, ih hc.tail⟩
      intro y hy
      cases l with
      | nil =>
        simp [List.orderedInsert] at hy
        rw [← hy]
        exact hba
      | cons c l' =>
        rw [List.orderedInsert] at hy
        split at hy
        · simp at hy
          rw [← hy]
          exact hba
        · simp at hy
          rw [← hy]
          exact (List.chain'_cons.1 hc).1

theorem chain'_insertionSort {α : Type} (r : α → α → Prop) [DecidableRel r]
    (total : ∀ a b, r a b ∨ r b a) :
    ∀ l, List.Chain' r (List.insertionSort r l) := by
  intro l
  induction l with
  | nil => simp [List.insertionSort]
  | cons a l ih => exact chain'_orderedInsert r total a _ ih

theorem fusionLE_total : ∀ a b, fusionLE a b ∨ fusionLE b a := by
  intro a b
  unfold fusionLE fusionCompare
  by_cases h : |b.fusedScore - a.fusedScore| > FLOAT_TOLERANCE
  · rw [if_pos h, if_pos (by rwa [abs_sub_comm] at h)]
    rcases le_total (b.fusedScore - a.fusedScore) 0 with h' | h'
    · exact Or.inl h'
    · exact Or.inr (by linarith)
  · rw [if_neg h, if_neg (by rwa [abs_sub_comm] at h)]
    rcases le_total (b.rrfScore - a.rrfScore) 0 with h' | h'
    · exact Or.inl h'
    · exact Or.inr (by linarith)

theorem fusionLE_adjacentOK (a b : MItem) (h : fusionLE a b) : fusionAdjacentOK a b := by
  unfold fusionLE fusionCompare at h
  constructor
  · intro habs
    rw [if_pos habs] at h
    have hne : b.fusedScore ≠ a.fusedScore := by
      intro heq
      rw [heq] at habs
      simp at habs
      exact absurd habs (by norm_num [FLOAT_TOLERANCE])
    have hle : b.fusedScore ≤ a.fusedScore := by linarith
    exact lt_of_le_of_ne hle hne
  · intro habs
    rw [if_neg (not_lt.2 habs)] at h
    linarith

theorem calculateRRFScore_pair (a b : Option Nat) :
    calculateRRFScore [a, b] = specRRF a b := by
  cases a <;> cases b <;> simp [calculateRRFScore, specRRF, RRF_K]

/-- Claim C2 as amended: the hybrid merge output satisfies the
comparator between every pair of *adjacent* results — a fused-score gap
above the 0.001 tolerance is ordered by fused score descending, a gap
within the tolerance is ordered by RRF score descending — and every
result's RRF score is the sum of `1/(60 + r)` over the 1-based ranks at
which each engine placed it.  (Global fused-descending sortedness fails;
see the counterexample.) -/
theorem claim_C2_amended (semanticResults keywordResults : List MItem)
    (getKey : MItem → Nat) (getKwScore : MItem → Option ℚ)
    (onMerge : MItem → MItem → MItem) :
    List.Chain' fusionAdjacentOK
      (mergeWithRRFGeneric semanticResults keywordResults getKey getKwScore onMerge) ∧
    (∀ t ∈ mergeWithRRFGeneric semanticResults keywordResults getKey getKwScore onMerge,
      t.rrfScore = specRRF t.semanticRank t.keywordRank) := by
  constructor
  · have hchain := chain'_insertionSort fusionLE fusionLE_total
      (((fusionAddKeyword getKey getKwScore onMerge
        (fusionSeedSemantic getKey semanticResults) keywordResults).map Prod.snd).map
          applyFusionScores)
    exact List.Chain'.imp fusionLE_adjacentOK hchain
  · intro t ht
    have h2 := (mergeWithRRFGeneric_scores semanticResults keywordResults getKey getKwScore
      onMerge t ht).2.1
    rw [h2, calculateRRFScore_pair]

/-- Witness for claim C2's amended theorem: on the counterexample input
the adjacent pair is within tolerance and ordered by RRF descending, and
the RRF scores are `1/61` and `1/63`. -/
theorem claim_C2_amended_witness :
    List.Chain' fusionAdjacentOK (mergeWithRRF [c2ItemA, c2ItemB] []) ∧
      ((mergeWithRRF [c2ItemA, c2ItemB] []).map (·.rrfScore) = [1/61, 1/63]) := by
  have h := claim_C2_amended [c2ItemA, c2ItemB] [] (·.key) (·.keywordScore) onMergeBooks
  refine ⟨h.1, ?_⟩
  have habs : |(1:ℚ)/2000| = 1/2000 := by
    rw [abs_of_pos]
    norm_num
  norm_num [mergeWithRRF, mergeWithRRFGeneric, fusionSeedSemantic, fusionAddKeyword,
    jsMapSet, jsMapGet, applyFusionScores, calculateFusedScore, calculateRRFScore,
    fusionCompare, fusionLE, List.insertionSort, List.orderedInsert, c2ItemA, c2ItemB,
    SEMANTIC_WEIGHT, KEYWORD_WEIGHT, FLOAT_TOLERANCE, RRF_K, BM25_NORM_K,
    normalizeBM25Score, habs]

theorem jsMapGet_jsMapSet_ne {α β : Type} [DecidableEq α] (m : List (α × β)) (k' k : α)
    (v : β) (h : k' ≠ k) : jsMapGet (jsMapSet m k' v) k = jsMapGet m k := by
  induction m with
  | nil => simp [jsMapSet, jsMapGet, h]
  | cons p rest ih =>
    by_cases hp : p.1 = k'
    · simp [jsMapSet, jsMapGet, hp, h]
    · simp only [jsMapSet, if_neg hp, jsMapGet]
      by_cases hk : p.1 = k
      · simp [hk]
      · simp [hk, ih]

theorem jsMapSet_mem {α β : Type} [DecidableEq α] (m : List (α × β)) (k : α) (v : β) :
    ∀ p ∈ jsMapSet m k v, p = (k, v) ∨ p ∈ m := by
  induction m with
  | nil => intro p hp; simp [jsMapSet] at hp; exact Or.inl hp
  | cons q rest ih =>
    intro p hp
    by_cases hq : q.1 = k
    · simp only [jsMapSet, if_pos hq] at hp
      rcases List.mem_cons.1 hp with h | h
      · exact Or.inl h
      · exact Or.inr (List.mem_cons_of_mem _ h)
    · simp only [jsMapSet, if_neg hq] at hp
      rcases List.mem_cons.1 hp with h | h
      · exact Or.inr (by simp [h])
      · rcases ih p h with h' | h'
        · exact Or.inl h'
        · exact Or.inr (List.mem_cons_of_mem _ h')

theorem jsMapSet_keys {α β : Type} [DecidableEq α] (m : List (α × β)) (k : α) (v : β) :
    (jsMapSet m k v).map Prod.fst = m.map Prod.fst ∨
      (jsMapSet m k v).map Prod.fst = m.map Prod.fst ++ [k] := by
  induction m with
  | nil => simp [jsMapSet]
  | cons q rest ih =>
    by_cases hq : q.1 = k
    · simp [jsMapSet, hq]
    · simp only [jsMapSet, if_neg hq, List.map_cons]
      rcases ih with h | h
      · rw [h]
        simp
      · rw [h]
        simp

theorem jsMapSet_keys_nodup {α β : Type} [DecidableEq α] (m : List (α × β)) (k : α) (v : β)
    (hm : mapKeysNodup m) (habs : jsMapGet m k = Option.none → k ∉ m.map Prod.fst) :
    mapKeysNodup (jsMapSet m k v) := by
  induction m with
  | nil => simp [jsMapSet, mapKeysNodup]
  | cons q rest ih =>
    by_cases hq : q.1 = k
    · unfold mapKeysNodup at hm ⊢
      simp only [jsMapSet, if_pos hq, List.map_cons] at *
      rw [← hq]
      exact hm
    · unfold mapKeysNodup at hm ⊢
      simp only [jsMapSet, if_neg hq, List.map_cons]
      simp only [List.map_cons, List.nodup_cons] at hm
      rw [List.nodup_cons]
      constructor
      · intro hmem
        rcases jsMapSet_keys rest k v with h | h
        · rw [h] at hmem
          exact hm.1 hmem
        · rw [h] at hmem
          rcases List.mem_append.1 hmem with h' | h'
          · exact hm.1 h'
          · simp at h'
            exact hq h'
      · refine ih hm.2 ?_
        intro hnone hk
        have : jsMapGet (q :: rest) k = Option.none := by
          simp [jsMapGet, hq, hnone]
        have hkm : k ∉ (q :: rest).map Prod.fst := habs this
        simp only [List.map_cons, List.mem_cons] at hkm
        exact hkm (Or.inr hk)

theorem jsMapGet_none_iff {α β : Type} [DecidableEq α] (m : List (α × β)) (k : α) :
    jsMapGet m k = Option.none ↔ k ∉ m.map Prod.fst := by
  induction m with
  | nil => simp [jsMapGet]
  | cons q rest ih =>
    by_cases hq : q.1 = k
    · simp [jsMapGet, hq]
    · simp only [jsMapGet, if_neg hq, List.map_cons, List.mem_cons]
      rw [ih]
      constructor
      · intro h hk
        rcases hk with hk | hk
        · exact hq hk.symm
        · exact h hk
      · intro h hk
        exact h (Or.inr hk)

theorem jsMapGet_mem {α β : Type} [DecidableEq α] (m : List (α × β)) (k : α) (v : β)
    (h : jsMapGet m k = some v) : (k, v) ∈ m := by
  induction m with
  | nil => simp [jsMapGet] at h
  | cons q rest ih =>
    by_cases hq : q.1 = k
    · simp only [jsMapGet, if_pos hq, Option.some_inj] at h
      cases q with
      | mk a b =>
        simp only at hq h
        rw [List.mem_cons]
        exact Or.inl (by rw [hq, h])
    · simp only [jsMapGet, if_neg hq] at h
      exact List.mem_cons_of_mem _ (ih h)

theorem mem_jsMapGet_of_nodup {α β : Type} [DecidableEq α] :
    ∀ (m : List (α × β)) (k : α) (v : β), mapKeysNodup m → (k, v) ∈ m →
      jsMapGet m k = some v := by
  intro m
  induction m with
  | nil => intro k v _ h; cases h
  | cons q rest ih =>
    intro k v hnd h
    rcases List.mem_cons.1 h with h' | h'
    · rw [← h']
      simp [jsMapGet]
    · have hk : k ∈ rest.map Prod.fst :=
        List.mem_map.2 ⟨(k, v), h', rfl⟩
      have hq : q.1 ≠ k := by
        intro he
        unfold mapKeysNodup at hnd
        rw [List.map_cons, List.nodup_cons] at hnd
        exact hnd.1 (he ▸ hk)
      simp only [jsMapGet, if_neg hq]
      refine ih k v ?_ h'
      unfold mapKeysNodup at hnd ⊢
      rw [List.map_cons, List.nodup_cons] at hnd
      exact hnd.2

theorem occSum_zero (getKey : MItem → Nat) (k : Nat) (w : ℚ) :
    ∀ (results : List MItem) (s : Nat), keyAbsent getKey k results →
      occSum getKey k w results s = 0 := by
  intro results
  induction results with
  | nil => intro s _; rfl
  | cons x rest ih =>
    intro s habs
    have hx : getKey x ≠ k := habs x (List.mem_cons_self _ _)
    simp only [occSum, if_neg hx]
    rw [ih (s + 1) (fun y hy => habs y (List.mem_cons_of_mem _ hy))]
    ring

theorem occSum_single (getKey : MItem → Nat) (k : Nat) (w : ℚ) :
    ∀ (results : List MItem) (s r : Nat),
      (results.get? r).map getKey = some k →
      (∀ r', (results.get? r').map getKey = some k → r' = r) →
      occSum getKey k w results s = w / (RRF_K + (s + r) + 1) := by
  intro results
  induction results with
  | nil =>
    intro s r h _
    simp [List.get?] at h
  | cons x rest ih =>
    intro s r h huniq
    cases r with
    | zero =>
      have hx : getKey x = k := by
        simpa [List.get?] using h
      have habs : keyAbsent getKey k rest := by
        intro y hy hyk
        obtain ⟨n, hn⟩ := List.mem_iff_get?.1 hy
        have : (x :: rest).get? (n + 1) = some y := by simpa [List.get?] using hn
        have := huniq (n + 1) (by rw [this]; simp [hyk])
        omega
      simp only [occSum, if_pos hx]
      rw [occSum_zero getKey k w rest (s + 1) habs]
      push_cast
      ring
    | succ r' =>
      have hx : getKey x ≠ k := by
        intro hxk
        have : (x :: rest).get? 0 = some x := rfl
        have h0 := huniq 0 (by rw [this]; simp [hxk])
        omega
      simp only [occSum, if_neg hx]
      have hr : (rest.get? r').map getKey = some k := by
        simpa [List.get?] using h
      have hru : ∀ r'', (rest.get? r'').map getKey = some k → r'' = r' := by
        intro r'' h''
        have : (x :: rest).get? (r'' + 1) = rest.get? r'' := rfl
        have := huniq (r'' + 1) (by rw [this]; exact h'')
        omega
      rw [ih (s + 1) r' hr hru]
      push_cast
      ring

theorem dedupQuery_score (getKey : MItem → Nat) (mergeBest : MItem → MItem → MItem)
    (hMBw : ∀ e i, (mergeBest e i).weightedRrfScore = e.weightedRrfScore) (w : ℚ) :
    ∀ (results : List MItem) (rank : Nat) (m : List (Nat × MItem)) (k : Nat),
      optScore (jsMapGet (dedupQuery getKey mergeBest w results rank m) k) =
        optScore (jsMapGet m k) + occSum getKey k w results rank := by
  intro results
  induction results with
  | nil => intro rank m k; simp [dedupQuery, occSum]
  | cons result rest ih =>
    intro rank m k
    cases hget : jsMapGet m (getKey result) with
    | none =>
      simp only [dedupQuery, hget, occSum]
      rw [ih]
      by_cases hk : getKey result = k
      · rw [← hk, jsMapGet_jsMapSet_self, hget]
        simp only [optScore, eq_self_iff_true, if_true]
        ring
      · rw [jsMapGet_jsMapSet_ne m (getKey result) k _ hk, if_neg hk]
        ring
    | some e =>
      simp only [dedupQuery, hget, occSum]
      rw [ih]
      by_cases hk : getKey result = k
      · rw [← hk, jsMapGet_jsMapSet_self, hget]
        simp only [optScore, eq_self_iff_true, if_true, hMBw]
        ring
      · rw [jsMapGet_jsMapSet_ne m (getKey result) k _ hk, if_neg hk]
        ring

theorem dedupQuery_good (getKey : MItem → Nat) (mergeBest : MItem → MItem → MItem)
    (hW : ∀ x v, getKey { x with weightedRrfScore := v } = getKey x)
    (hWS : ∀ x v s, getKey { x with weightedRrfScore := v, semanticScore := s } = getKey x)
    (hMBk : ∀ e i, getKey (mergeBest e i) = getKey e) (w : ℚ) :
    ∀ (results : List MItem) (rank : Nat) (m : List (Nat × MItem)),
      mapKeysNodup m → (∀ p ∈ m, getKey p.2 = p.1) →
      mapKeysNodup (dedupQuery getKey mergeBest w results rank m) ∧
        ∀ p ∈ dedupQuery getKey mergeBest w results rank m, getKey p.2 = p.1 := by
  intro results
  induction results with
  | nil => intro rank m hnd hall; exact ⟨hnd, hall⟩
  | cons result rest ih =>
    intro rank m hnd hall
    cases hget : jsMapGet m (getKey result) with
    | none =>
      simp only [dedupQuery, hget]
      refine ih (rank + 1) _ ?_ ?_
      · exact jsMapSet_keys_nodup m (getKey result) _ hnd
          (fun h => (jsMapGet_none_iff m (getKey result)).1 h)
      · intro p hp
        rcases jsMapSet_mem m (getKey result) _ p hp with h | h
        · rw [h]
          exact hW result _
        · exact hall p h
    | some e =>
      simp only [dedupQuery, hget]
      refine ih (rank + 1) _ ?_ ?_
      · exact jsMapSet_keys_nodup m (getKey result) _ hnd
          (fun h => (jsMapGet_none_iff m (getKey result)).1 h)
      · intro p hp
        rcases jsMapSet_mem m (getKey result) _ p hp with h | h
        · rw [h]
          exact (hMBk _ result).trans ((hWS e _ _).trans
            (hall (getKey result, e) (jsMapGet_mem m _ e hget)))
        · exact hall p h

theorem dedupFold_score (getKey : MItem → Nat) (mergeBest : MItem → MItem → MItem)
    (hMBw : ∀ e i, (mergeBest e i).weightedRrfScore = e.weightedRrfScore) :
    ∀ (qs : List (List MItem × ℚ)) (m : List (Nat × MItem)) (k : Nat),
      optScore (jsMapGet
          (qs.foldl (fun m p => dedupQuery getKey mergeBest p.2 p.1 0 m) m) k) =
        optScore (jsMapGet m k) + specWeightedRRF qs getKey k := by
  intro qs
  induction qs with
  | nil => intro m k; simp [specWeightedRRF]
  | cons p qs ih =>
    intro m k
    rw [List.foldl_cons, ih, dedupQuery_score getKey mergeBest hMBw]
    simp only [specWeightedRRF, List.map_cons, List.sum_cons]
    ring

theorem dedupRunAll_score (getKey : MItem → Nat) (mergeBest : MItem → MItem → MItem)
    (hMBw : ∀ e i, (mergeBest e i).weightedRrfScore = e.weightedRrfScore)
    (qs : List (List MItem × ℚ)) (k : Nat) :
    optScore (jsMapGet (dedupRunAll getKey mergeBest qs) k) =
      specWeightedRRF qs getKey k := by
  unfold dedupRunAll
  rw [dedupFold_score getKey mergeBest hMBw]
  simp [jsMapGet, optScore]

theorem dedupRunAll_good (getKey : MItem → Nat) (mergeBest : MItem → MItem → MItem)
    (hW : ∀ x v, getKey { x with weightedRrfScore := v } = getKey x)
    (hWS : ∀ x v s, getKey { x with weightedRrfScore := v, semanticScore := s } = getKey x)
    (hMBk : ∀ e i, getKey (mergeBest e i) = getKey e)
    (qs : List (List MItem × ℚ)) :
    mapKeysNodup (dedupRunAll getKey mergeBest qs) ∧
      ∀ p ∈ dedupRunAll getKey mergeBest qs, getKey p.2 = p.1 := by
  unfold dedupRunAll
  have hgen : ∀ (qs' : List (List MItem × ℚ)) (m : List (Nat × MItem)),
      mapKeysNodup m → (∀ p ∈ m, getKey p.2 = p.1) →
      mapKeysNodup (qs'.foldl (fun m p => dedupQuery getKey mergeBest p.2 p.1 0 m) m) ∧
        ∀ p ∈ qs'.foldl (fun m p => dedupQuery getKey mergeBest p.2 p.1 0 m) m,
          getKey p.2 = p.1 := by
    intro qs'
    induction qs' with
    | nil => intro m hnd hall; exact ⟨hnd, hall⟩
    | cons p qs' ih =>
      intro m hnd hall
      rw [List.foldl_cons]
      obtain ⟨h1, h2⟩ := dedupQuery_good getKey mergeBest hW hWS hMBk p.2 p.1 0 m hnd hall
      exact ih _ h1 h2
  refine hgen qs [] ?_ ?_
  · simp [mapKeysNodup]
  · intro p hp; cases hp

theorem mergeAndDeduplicateGeneric_perm (qs : List (List MItem × ℚ))
    (getKey : MItem → Nat) (mergeBest : MItem → MItem → MItem) :
    (mergeAndDeduplicateGeneric qs getKey mergeBest).Perm
      ((dedupRunAll getKey mergeBest qs).map Prod.snd) :=
  List.perm_insertionSort dedupeLE _

theorem mergeAndDeduplicateGeneric_mem_score (qs : List (List MItem × ℚ))
    (getKey : MItem → Nat) (mergeBest : MItem → MItem → MItem)
    (hW : ∀ x v, getKey { x with weightedRrfScore := v } = getKey x)
    (hWS : ∀ x v s, getKey { x with weightedRrfScore := v, semanticScore := s } = getKey x)
    (hMBk : ∀ e i, getKey (mergeBest e i) = getKey e)
    (hMBw : ∀ e i, (mergeBest e i).weightedRrfScore = e.weightedRrfScore) :
    ∀ v ∈ mergeAndDeduplicateGeneric qs getKey mergeBest,
      v.weightedRrfScore = specWeightedRRF qs getKey (getKey v) := by
  intro v hv
  have hv' : v ∈ (dedupRunAll getKey mergeBest qs).map Prod.snd :=
    (mergeAndDeduplicateGeneric_perm qs getKey mergeBest).mem_iff.mp hv
  obtain ⟨p, hp, hpv⟩ := List.mem_map.1 hv'
  obtain ⟨hnd, hall⟩ := dedupRunAll_good getKey mergeBest hW hWS hMBk qs
  have hkey : getKey v = p.1 := by rw [← hpv]; exact hall p hp
  have hget : jsMapGet (dedupRunAll getKey mergeBest qs) p.1 = some p.2 := by
    refine mem_jsMapGet_of_nodup _ _ _ hnd ?_
    rw [show (p.1, p.2) = p from rfl]
    exact hp
  have := dedupRunAll_score getKey mergeBest hMBw qs p.1
  rw [hget] at this
  rw [hkey, ← hpv, ← this]
  rfl

theorem mergeAndDeduplicateGeneric_exists (qs : List (List MItem × ℚ))
    (getKey : MItem → Nat) (mergeBest : MItem → MItem → MItem)
    (hW : ∀ x v, getKey { x with weightedRrfScore := v } = getKey x)
    (hWS : ∀ x v s, getKey { x with weightedRrfScore := v, semanticScore := s } = getKey x)
    (hMBk : ∀ e i, getKey (mergeBest e i) = getKey e)
    (hMBw : ∀ e i, (mergeBest e i).weightedRrfScore = e.weightedRrfScore)
    (k : Nat) (hk : specWeightedRRF qs getKey k ≠ 0) :
    ∃ v ∈ mergeAndDeduplicateGeneric qs getKey mergeBest,
      getKey v = k ∧ v.weightedRrfScore = specWeightedRRF qs getKey k := by
  obtain ⟨hnd, hall⟩ := dedupRunAll_good getKey mergeBest hW hWS hMBk qs
  have hscore := dedupRunAll_score getKey mergeBest hMBw qs k
  cases hget : jsMapGet (dedupRunAll getKey mergeBest qs) k with
  | none =>
    rw [hget] at hscore
    exact absurd hscore.symm (by simpa [optScore] using hk)
  | some v =>
    rw [hget] at hscore
    have hmem : (k, v) ∈ dedupRunAll getKey mergeBest qs := jsMapGet_mem _ _ _ hget
    refine ⟨v, ?_, ?_, ?_⟩
    · exact (mergeAndDeduplicateGeneric_perm qs getKey mergeBest).mem_iff.mpr
        (List.mem_map.2 ⟨(k, v), hmem, rfl⟩)
    · exact hall (k, v) hmem
    · exact hscore

theorem dedupeLE_total : ∀ a b : MItem, dedupeLE a b ∨ dedupeLE b a :=
  fun a b => le_total b.weightedRrfScore a.weightedRrfScore

theorem mergeAndDeduplicateGeneric_sorted (qs : List (List MItem × ℚ))
    (getKey : MItem → Nat) (mergeBest : MItem → MItem → MItem) :
    (mergeAndDeduplicateGeneric qs getKey mergeBest).Pairwise dedupeLE := by
  have := @List.sorted_insertionSort MItem dedupeLE _
    ⟨fun a b => le_total b.weightedRrfScore a.weightedRrfScore⟩
    ⟨fun a b c hab hbc => le_trans hbc hab⟩
    ((dedupRunAll getKey mergeBest qs).map Prod.snd)
  exact this

theorem specWeightedRRF_all (qs : List (List MItem × ℚ)) (getKey : MItem → Nat)
    (k : Nat) (r : Nat) (h : ∀ p ∈ qs, keyOnlyAtRank getKey k p.1 r) :
    specWeightedRRF qs getKey k =
      (qs.map (fun p => p.2 / (RRF_K + (r : ℚ) + 1))).sum := by
  unfold specWeightedRRF
  congr 1
  refine List.map_congr_left ?_
  intro p hp
  rw [occSum_single getKey k p.2 p.1 0 r (h p hp).1 (h p hp).2]
  push_cast
  ring_nf

theorem specWeightedRRF_singleVariant (qsL qsR : List (List MItem × ℚ))
    (pj : List MItem × ℚ) (getKey : MItem → Nat) (k : Nat) (rY : Nat)
    (hpj : keyOnlyAtRank getKey k pj.1 rY)
    (hL : ∀ p ∈ qsL, keyAbsent getKey k p.1)
    (hR : ∀ p ∈ qsR, keyAbsent getKey k p.1) :
    specWeightedRRF (qsL ++ pj :: qsR) getKey k = pj.2 / (RRF_K + (rY : ℚ) + 1) := by
  unfold specWeightedRRF
  rw [List.map_append, List.sum_append, List.map_cons, List.sum_cons]
  rw [List.sum_eq_zero (fun x hx => by
    obtain ⟨p, hp, hpx⟩ := List.mem_map.1 hx
    rw [← hpx]
    exact occSum_zero getKey k p.2 p.1 0 (hL p hp))]
  rw [List.sum_eq_zero (fun x hx => by
    obtain ⟨p, hp, hpx⟩ := List.mem_map.1 hx
    rw [← hpx]
    exact occSum_zero getKey k p.2 p.1 0 (hR p hp))]
  rw [occSum_single getKey k pj.2 pj.1 0 rY hpj.1 hpj.2]
  push_cast
  ring_nf

/-- **C3.** In refine-mode multi-query dedupe (`mergeAndDeduplicateGeneric`),
every occurrence of a key at 0-based rank `r` in a variant's result list
with weight `w` adds `w / (60 + r + 1)` to that key's weighted RRF score
(first conjunct: every output item's `weightedRrfScore` is the spec-side
weighted-RRF sum of its key); the output is sorted by weighted RRF score
descending (second conjunct); and with all weights positive an item
appearing at the same rank `r` in every one of the `m ≥ 2` variants ranks
strictly above an item appearing only once, at a rank `rY ≥ r` of a single
variant (third conjunct).  The key-extraction and merge callbacks are
assumed not to touch the key or the accumulated score, as the concrete
callbacks of `fusion.ts` do. -/
theorem claim_C3 (getKey : MItem → Nat) (mergeBest : MItem → MItem → MItem)
    (hW : ∀ x v, getKey { x with weightedRrfScore := v } = getKey x)
    (hWS : ∀ x v s, getKey { x with weightedRrfScore := v, semanticScore := s } = getKey x)
    (hMBk : ∀ e i, getKey (mergeBest e i) = getKey e)
    (hMBw : ∀ e i, (mergeBest e i).weightedRrfScore = e.weightedRrfScore)
    (qs : List (List MItem × ℚ)) :
    (∀ v ∈ mergeAndDeduplicateGeneric qs getKey mergeBest,
        v.weightedRrfScore = specWeightedRRF qs getKey (getKey v)) ∧
      (mergeAndDeduplicateGeneric qs getKey mergeBest).Pairwise dedupeLE ∧
      ∀ (kX kY r rY : Nat) (qsL qsR : List (List MItem × ℚ)) (pj : List MItem × ℚ),
        kX ≠ kY → (∀ p ∈ qs, 0 < p.2) → 2 ≤ qs.length →
        qs = qsL ++ pj :: qsR →
        (∀ p ∈ qs, keyOnlyAtRank getKey kX p.1 r) →
        keyOnlyAtRank getKey kY pj.1 rY →
        (∀ p ∈ qsL, keyAbsent getKey kY p.1) →
        (∀ p ∈ qsR, keyAbsent getKey kY p.1) →
        r ≤ rY →
        ∃ iX iY : Fin (mergeAndDeduplicateGeneric qs getKey mergeBest).length,
          getKey ((mergeAndDeduplicateGeneric qs getKey mergeBest).get iX) = kX ∧
            getKey ((mergeAndDeduplicateGeneric qs getKey mergeBest).get iY) = kY ∧
            (iX : Nat) < (iY : Nat) := by
  refine ⟨mergeAndDeduplicateGeneric_mem_score qs getKey mergeBest hW hWS hMBk hMBw,
    mergeAndDeduplicateGeneric_sorted qs getKey mergeBest, ?_⟩
  intro kX kY r rY qsL qsR pj hne hwpos hlen hqs hallX hpjY hLabs hRabs hrle
  have hden_r : (0:ℚ) < RRF_K + (r:ℚ) + 1 := by unfold RRF_K; positivity
  have hden_rY : (0:ℚ) < RRF_K + (rY:ℚ) + 1 := by unfold RRF_K; positivity
  have hpjmem : pj ∈ qs := by
    rw [hqs]; exact List.mem_append_right _ (List.mem_cons_self _ _)
  have hpjpos : 0 < pj.2 := hwpos pj hpjmem
  have hY : specWeightedRRF qs getKey kY = pj.2 / (RRF_K + (rY:ℚ) + 1) := by
    rw [hqs]
    exact specWeightedRRF_singleVariant qsL qsR pj getKey kY rY hpjY hLabs hRabs
  have hYpos : 0 < specWeightedRRF qs getKey kY := by
    rw [hY]; exact div_pos hpjpos hden_rY
  have hX : specWeightedRRF qs getKey kX =
      (qs.map (fun p => p.2 / (RRF_K + (r : ℚ) + 1))).sum :=
    specWeightedRRF_all qs getKey kX r hallX
  have hXY : specWeightedRRF qs getKey kY < specWeightedRRF qs getKey kX := by
    rw [hX, hY, hqs, List.map_append, List.sum_append, List.map_cons, List.sum_cons]
    have h1 : pj.2 / (RRF_K + (rY:ℚ) + 1) ≤ pj.2 / (RRF_K + (r:ℚ) + 1) := by
      rw [div_le_div_iff hden_rY hden_r]
      have hc : (r:ℚ) ≤ (rY:ℚ) := by exact_mod_cast hrle
      nlinarith [hpjpos]
    have hLpos : ∀ x ∈ qsL.map (fun p => p.2 / (RRF_K + (r : ℚ) + 1)), 0 < x := by
      intro x hx
      obtain ⟨p, hp, hpx⟩ := List.mem_map.1 hx
      rw [← hpx]
      exact div_pos (hwpos p (by rw [hqs]; exact List.mem_append_left _ hp)) hden_r
    have hRpos : ∀ x ∈ qsR.map (fun p => p.2 / (RRF_K + (r : ℚ) + 1)), 0 < x := by
      intro x hx
      obtain ⟨p, hp, hpx⟩ := List.mem_map.1 hx
      rw [← hpx]
      refine div_pos (hwpos p ?_) hden_r
      rw [hqs]
      exact List.mem_append_right _ (List.mem_cons_of_mem _ hp)
    have hLnn : 0 ≤ (qsL.map (fun p => p.2 / (RRF_K + (r : ℚ) + 1))).sum :=
      List.sum_nonneg (fun x hx => (hLpos x hx).le)
    have hRnn : 0 ≤ (qsR.map (fun p => p.2 / (RRF_K + (r : ℚ) + 1))).sum :=
      List.sum_nonneg (fun x hx => (hRpos x hx).le)
    have hone : qsL ≠ [] ∨ qsR ≠ [] := by
      rw [hqs] at hlen
      simp only [List.length_append, List.length_cons] at hlen
      by_contra hcon
      push_neg at hcon
      rw [hcon.1, hcon.2] at hlen
      simp at hlen
    rcases hone with hone | hone
    · have hLp : 0 < (qsL.map (fun p => p.2 / (RRF_K + (r : ℚ) + 1))).sum :=
        List.sum_pos _ hLpos (by simpa using hone)
      linarith
    · have hRp : 0 < (qsR.map (fun p => p.2 / (RRF_K + (r : ℚ) + 1))).sum :=
        List.sum_pos _ hRpos (by simpa using hone)
      linarith
  have hXpos : 0 < specWeightedRRF qs getKey kX := lt_trans hYpos hXY
  obtain ⟨vX, hvXmem, hvXkey, hvXscore⟩ :=
    mergeAndDeduplicateGeneric_exists qs getKey mergeBest hW hWS hMBk hMBw kX
      (ne_of_gt hXpos)
  obtain ⟨vY, hvYmem, hvYkey, hvYscore⟩ :=
    mergeAndDeduplicateGeneric_exists qs getKey mergeBest hW hWS hMBk hMBw kY
      (ne_of_gt hYpos)
  obtain ⟨iX, hiX⟩ := List.mem_iff_get.1 hvXmem
  obtain ⟨iY, hiY⟩ := List.mem_iff_get.1 hvYmem
  refine ⟨iX, iY, by rw [hiX, hvXkey], by rw [hiY, hvYkey], ?_⟩
  rcases lt_trichotomy (iX : Nat) (iY : Nat) with h | h | h
  · exact h
  · exfalso
    apply hne
    have : iX = iY := Fin.ext h
    rw [← hvXkey, ← hvYkey, ← hiX, ← hiY, this]
  · exfalso
    have hle := List.pairwise_iff_get.1
      (mergeAndDeduplicateGeneric_sorted qs getKey mergeBest) iY iX h
    rw [hiX, hiY] at hle
    unfold dedupeLE at hle
    rw [hvXscore, hvYscore] at hle
    exact absurd hle (not_le.mpr hXY)

theorem mergeBestBooks_key (e i : MItem) : (mergeBestBooks e i).key = e.key := by
  unfold mergeBestBooks
  cases hh : i.highlightedSnippet with
  | none => rfl
  | some h =>
    by_cases hc : h ≠ "" ∧ h ≠ i.textSnippet
    · simp only [if_pos hc]
    · simp only [if_neg hc]

theorem mergeBestBooks_weightedRrfScore (e i : MItem) :
    (mergeBestBooks e i).weightedRrfScore = e.weightedRrfScore := by
  unfold mergeBestBooks
  cases hh : i.highlightedSnippet with
  | none => rfl
  | some h =>
    by_cases hc : h ≠ "" ∧ h ≠ i.textSnippet
    · simp only [if_pos hc]
    · simp only [if_neg hc]

/-- Witness for C3: on the two concrete variants of `c3qs` (key 1 at rank
0 in both variants, key 2 only at rank 1 of the first, weights 1 and 1/2),
the dedupe output places key 1 strictly before key 2. -/
theorem claim_C3_witness :
    ∃ iX iY : Fin (mergeAndDeduplicateGeneric c3qs MItem.key mergeBestBooks).length,
      ((mergeAndDeduplicateGeneric c3qs MItem.key mergeBestBooks).get iX).key = 1 ∧
        ((mergeAndDeduplicateGeneric c3qs MItem.key mergeBestBooks).get iY).key = 2 ∧
        (iX : Nat) < (iY : Nat) := by
  have hallX : ∀ p ∈ c3qs, keyOnlyAtRank MItem.key 1 p.1 0 := by
    intro p hp
    simp only [c3qs, List.mem_cons, List.not_mem_nil, or_false] at hp
    rcases hp with h | h <;> subst h <;> refine ⟨by simp [c3X], ?_⟩ <;>
      intro r' h' <;> rcases r' with _ | _ | n
    · rfl
    · simp [List.get?, c3Y] at h'
    · simp [List.get?] at h'
    · rfl
    · simp [List.get?] at h'
    · simp [List.get?] at h'
  have hpjY : keyOnlyAtRank MItem.key 2 [c3X, c3Y] 1 := by
    refine ⟨by simp [c3Y, List.get?], ?_⟩
    intro r' h'
    rcases r' with _ | _ | n
    · simp [List.get?, c3X] at h'
    · rfl
    · simp [List.get?] at h'
  have h := (claim_C3 MItem.key mergeBestBooks (fun _ _ => rfl) (fun _ _ _ => rfl)
      mergeBestBooks_key mergeBestBooks_weightedRrfScore c3qs).2.2
      1 2 0 1 [] [([c3X], 1/2)] ([c3X, c3Y], 1)
      (by decide)
      (by
        intro p hp
        simp only [c3qs, List.mem_cons, List.not_mem_nil, or_false] at hp
        rcases hp with h | h <;> subst h <;> norm_num)
      (by simp [c3qs])
      (by simp [c3qs])
      hallX
      hpjY
      (fun p hp => absurd hp (List.not_mem_nil p))
      (by
        intro p hp
        simp only [List.mem_cons, List.not_mem_nil, or_false] at hp
        subst hp
        intro x hx
        simp only [List.mem_cons, List.not_mem_nil, or_false] at hx
        subst hx
        simp [c3X])
      (by omega)
  exact h

set_option maxHeartbeats 2000000 in
theorem collapseWsL_nil : collapseWsL [] = [] := by rw [collapseWsL.eq_def]

set_option maxHeartbeats 2000000 in
theorem collapseWsL_cons (c : Char) (cs : List Char) :
    collapseWsL (c :: cs) =
      if isJsWs c then ' ' :: collapseWsL (cs.dropWhile isJsWs)
      else c :: collapseWsL cs := by rw [collapseWsL.eq_def]

theorem head_dropWhile_false (p : Char → Bool) :
    ∀ (l : List Char) (c : Char), (l.dropWhile p).head? = some c → p c = false := by
  intro l
  induction l with
  | nil => intro c h; simp [List.dropWhile] at h
  | cons x xs ih =>
    intro c h
    rw [List.dropWhile_cons] at h
    by_cases hp : p x = true
    · rw [if_pos hp] at h
      exact ih c h
    · rw [if_neg hp] at h
      simp only [List.head?_cons, Option.some_inj] at h
      rw [← h]
      exact Bool.eq_false_iff.mpr hp

theorem dropWhile_eq_self_of_head (p : Char → Bool) (l : List Char)
    (h : ∀ c, l.head? = some c → p c = false) : l.dropWhile p = l := by
  cases l with
  | nil => rfl
  | cons x xs =>
    rw [List.dropWhile_cons, if_neg]
    rw [h x rfl]
    simp

theorem collapseWsL_mem : ∀ (n : Nat) (l : List Char), l.length ≤ n →
    ∀ c ∈ collapseWsL l, c = ' ' ∨ c ∈ l := by
  intro n
  induction n with
  | zero =>
    intro l hl c hc
    rw [List.length_eq_zero.1 (Nat.le_zero.1 hl), collapseWsL_nil] at hc
    cases hc
  | succ n ih =>
    intro l hl c hc
    cases l with
    | nil => rw [collapseWsL_nil] at hc; cases hc
    | cons x xs =>
      rw [collapseWsL_cons] at hc
      by_cases hx : isJsWs x = true
      · rw [if_pos hx] at hc
        rcases List.mem_cons.1 hc with h | h
        · exact Or.inl h
        · have hlen : (xs.dropWhile isJsWs).length ≤ n := by
            have := List.IsSuffix.length_le (List.dropWhile_suffix (l := xs) isJsWs)
            simp only [List.length_cons] at hl
            omega
          rcases ih _ hlen c h with h' | h'
          · exact Or.inl h'
          · exact Or.inr (List.mem_cons_of_mem _
              (List.IsSuffix.subset (List.dropWhile_suffix isJsWs) h'))
      · rw [if_neg hx] at hc
        rcases List.mem_cons.1 hc with h | h
        · exact Or.inr (h ▸ List.mem_cons_self x xs)
        · have hlen : xs.length ≤ n := by
            simp only [List.length_cons] at hl; omega
          rcases ih _ hlen c h with h' | h'
          · exact Or.inl h'
          · exact Or.inr (List.mem_cons_of_mem _ h')

theorem trimL_mem (l : List Char) : ∀ c ∈ trimL l, c ∈ l := by
  intro c hc
  unfold trimL at hc
  rw [List.mem_reverse] at hc
  have h1 := List.IsSuffix.subset (List.dropWhile_suffix isJsWs) hc
  rw [List.mem_reverse] at h1
  exact List.IsSuffix.subset (List.dropWhile_suffix isJsWs) h1

theorem collapseWsL_ws_space : ∀ (n : Nat) (l : List Char), l.length ≤ n →
    ∀ c ∈ collapseWsL l, isJsWs c = true → c = ' ' := by
  intro n
  induction n with
  | zero =>
    intro l hl c hc
    rw [List.length_eq_zero.1 (Nat.le_zero.1 hl), collapseWsL_nil] at hc
    cases hc
  | succ n ih =>
    intro l hl c hc hws
    cases l with
    | nil => rw [collapseWsL_nil] at hc; cases hc
    | cons x xs =>
      rw [collapseWsL_cons] at hc
      by_cases hx : isJsWs x = true
      · rw [if_pos hx] at hc
        rcases List.mem_cons.1 hc with h | h
        · exact h
        · have hlen : (xs.dropWhile isJsWs).length ≤ n := by
            have := List.IsSuffix.length_le (List.dropWhile_suffix (l := xs) isJsWs)
            simp only [List.length_cons] at hl
            omega
          exact ih _ hlen c h hws
      · rw [if_neg hx] at hc
        rcases List.mem_cons.1 hc with h | h
        · rw [h] at hws; exact absurd hws hx
        · have hlen : xs.length ≤ n := by simp only [List.length_cons] at hl; omega
          exact ih _ hlen c h hws

theorem collapseWsL_head (l : List Char)
    (h : ∀ c, l.head? = some c → isJsWs c = false) :
    ∀ c, (collapseWsL l).head? = some c → isJsWs c = false := by
  intro c hc
  cases l with
  | nil => rw [collapseWsL_nil] at hc; cases hc
  | cons x xs =>
    rw [collapseWsL_cons, if_neg (by rw [h x rfl]; simp)] at hc
    simp only [List.head?_cons, Option.some_inj] at hc
    rw [← hc]
    exact h x rfl

theorem collapseWsL_chain : ∀ (n : Nat) (l : List Char), l.length ≤ n →
    List.Chain' (fun a b => ¬(isJsWs a = true ∧ isJsWs b = true)) (collapseWsL l) := by
  intro n
  induction n with
  | zero =>
    intro l hl
    rw [List.length_eq_zero.1 (Nat.le_zero.1 hl), collapseWsL_nil]
    exact List.chain'_nil
  | succ n ih =>
    intro l hl
    cases l with
    | nil => rw [collapseWsL_nil]; exact List.chain'_nil
    | cons x xs =>
      rw [collapseWsL_cons]
      by_cases hx : isJsWs x = true
      · rw [if_pos hx]
        have hlen : (xs.dropWhile isJsWs).length ≤ n := by
          have := List.IsSuffix.length_le (List.dropWhile_suffix (l := xs) isJsWs)
          simp only [List.length_cons] at hl
          omega
        refine List.chain'_cons'.2 ⟨?_, ih _ hlen⟩
        intro y hy
        have hyw : isJsWs y = false :=
          collapseWsL_head _ (head_dropWhile_false isJsWs xs) y hy
        intro hcon
        rw [hcon.2] at hyw
        cases hyw
      · rw [if_neg hx]
        have hlen : xs.length ≤ n := by simp only [List.length_cons] at hl; omega
        refine List.chain'_cons'.2 ⟨?_, ih _ hlen⟩
        intro y _ hcon
        exact hx hcon.1

theorem collapseWsL_wsNormalized (l : List Char) : wsNormalizedL (collapseWsL l) :=
  ⟨fun c hc hws => collapseWsL_ws_space l.length l le_rfl c hc hws,
    collapseWsL_chain l.length l le_rfl⟩

theorem chain'_symm_reverse (R : Char → Char → Prop) (hsym : ∀ a b, R a b → R b a)
    (l : List Char) (h : List.Chain' R l) : List.Chain' R l.reverse := by
  rw [List.chain'_reverse]
  exact h.imp (fun a b hab => hsym a b hab)

theorem trimL_wsNormalized (l : List Char) (h : wsNormalizedL l) :
    wsNormalizedL (trimL l) := by
  obtain ⟨h1, h2⟩ := h
  constructor
  · intro c hc hws
    exact h1 c (trimL_mem l c hc) hws
  · unfold trimL
    have hsym : ∀ a b : Char, ¬(isJsWs a = true ∧ isJsWs b = true) →
        ¬(isJsWs b = true ∧ isJsWs a = true) := fun a b hab ⟨x, y⟩ => hab ⟨y, x⟩
    have c1 : List.Chain' (fun a b => ¬(isJsWs a = true ∧ isJsWs b = true))
        (l.dropWhile isJsWs) := h2.suffix (List.dropWhile_suffix isJsWs)
    have c2 := chain'_symm_reverse _ hsym _ c1
    have c3 := c2.suffix (List.dropWhile_suffix isJsWs)
    exact chain'_symm_reverse _ hsym _ c3

theorem getLast_suffix_some (s t : List Char) (hs : s <:+ t) (c : Char)
    (h : s.getLast? = some c) : t.getLast? = some c := by
  obtain ⟨u, hu⟩ := hs
  rw [← hu, List.getLast?_append, h]
  rfl

theorem trimL_noEdgeWs (l : List Char) : noEdgeWs (trimL l) := by
  constructor
  · intro c hc
    unfold trimL at hc
    rw [List.head?_reverse] at hc
    have hlast := getLast_suffix_some _ _
      (List.dropWhile_suffix (l := (l.dropWhile isJsWs).reverse) isJsWs) c hc
    rw [List.getLast?_reverse] at hlast
    have := head_dropWhile_false isJsWs l c hlast
    simp [this]
  · intro c hc
    unfold trimL at hc
    rw [List.getLast?_reverse] at hc
    have := head_dropWhile_false isJsWs _ c hc
    simp [this]

theorem collapseWsL_id : ∀ (n : Nat) (l : List Char), l.length ≤ n →
    wsNormalizedL l → collapseWsL l = l := by
  intro n
  induction n with
  | zero =>
    intro l hl _
    rw [List.length_eq_zero.1 (Nat.le_zero.1 hl), collapseWsL_nil]
  | succ n ih =>
    intro l hl h
    cases l with
    | nil => exact collapseWsL_nil
    | cons x xs =>
      obtain ⟨h1, h2⟩ := h
      have htail : wsNormalizedL xs :=
        ⟨fun c hc => h1 c (List.mem_cons_of_mem _ hc), (List.chain'_cons'.1 h2).2⟩
      have hlen : xs.length ≤ n := by simp only [List.length_cons] at hl; omega
      by_cases hx : isJsWs x = true
      · have hx' : x = ' ' := h1 x (List.mem_cons_self _ _) hx
        have hhead : ∀ y, xs.head? = some y → isJsWs y = false := by
          intro y hy
          have hr := (List.chain'_cons'.1 h2).1 y (Option.mem_def.2 hy)
          by_contra hcon
          exact hr ⟨hx, Bool.of_not_eq_false hcon⟩
        rw [collapseWsL_cons, if_pos hx, dropWhile_eq_self_of_head _ _ hhead,
          ih xs hlen htail, hx']
      · rw [collapseWsL_cons, if_neg hx, ih xs hlen htail]

theorem trimL_id (l : List Char) (h : noEdgeWs l) : trimL l = l := by
  unfold trimL
  rw [dropWhile_eq_self_of_head _ _ (fun c hc => Bool.eq_false_iff.mpr (h.1 c hc))]
  rw [dropWhile_eq_self_of_head _ _ (fun c hc => by
    rw [List.head?_reverse] at hc
    exact Bool.eq_false_iff.mpr (h.2 c hc))]
  exact List.reverse_reverse l

theorem trimCollapse_idem (y : List Char) :
    trimL (collapseWsL (trimL (collapseWsL y))) = trimL (collapseWsL y) := by
  have hwsn : wsNormalizedL (trimL (collapseWsL y)) :=
    trimL_wsNormalized _ (collapseWsL_wsNormalized y)
  have hedge : noEdgeWs (trimL (collapseWsL y)) := trimL_noEdgeWs _
  rw [collapseWsL_id (trimL (collapseWsL y)).length _ le_rfl hwsn, trimL_id _ hedge]

theorem stripDiacriticsL_mem (l : List Char) (c : Char) (hc : c ∈ stripDiacriticsL l) :
    c ∈ l ∧ isArabicDiacritic c = false := by
  have h := List.mem_filter.1 hc
  exact ⟨h.1, by simpa using h.2⟩

theorem foldAlefL_mem (l : List Char) (c : Char) (hc : c ∈ foldAlefL l) :
    c.toNat = 0x627 ∨ (c ∈ l ∧ isAlefVariant c = false) := by
  obtain ⟨x, hx, hxe⟩ := List.mem_map.1 hc
  by_cases hv : isAlefVariant x = true
  · left
    rw [← hxe, if_pos hv]
    decide
  · right
    rw [← hxe, if_neg hv]
    exact ⟨hx, Bool.eq_false_iff.mpr hv⟩

theorem removeHamzaL_mem (l : List Char) (c : Char) (hc : c ∈ removeHamzaL l) :
    c ∈ l ∧ c.toNat ≠ 0x621 := by
  have h := List.mem_filter.1 hc
  exact ⟨h.1, by simpa using h.2⟩

theorem foldYehL_mem (l : List Char) (c : Char) (hc : c ∈ foldYehL l) :
    c.toNat = 0x64A ∨ (c ∈ l ∧ c.toNat ≠ 0x649) := by
  obtain ⟨x, hx, hxe⟩ := List.mem_map.1 hc
  by_cases hv : x.toNat = 0x649
  · left
    rw [← hxe, if_pos hv]
    decide
  · right
    rw [← hxe, if_neg hv]
    exact ⟨hx, hv⟩

theorem foldTehL_mem (l : List Char) (c : Char) (hc : c ∈ foldTehL l) :
    c.toNat = 0x647 ∨ (c ∈ l ∧ c.toNat ≠ 0x629) := by
  obtain ⟨x, hx, hxe⟩ := List.mem_map.1 hc
  by_cases hv : x.toNat = 0x629
  · left
    rw [← hxe, if_pos hv]
    decide
  · right
    rw [← hxe, if_neg hv]
    exact ⟨hx, hv⟩

theorem stageG_no_trigger (l : List Char) :
    ∀ c ∈ foldTehL (foldYehL (removeHamzaL (foldAlefL (stripDiacriticsL l)))),
      isNormTrigger c = false := by
  intro c hc
  rcases foldTehL_mem _ c hc with h647 | ⟨hc4, h629⟩
  · simp [isNormTrigger, isArabicDiacritic, isAlefVariant, h647]
  · rcases foldYehL_mem _ c hc4 with h64A | ⟨hc3, h649⟩
    · simp [isNormTrigger, isArabicDiacritic, isAlefVariant, h64A]
    · obtain ⟨hc2, h621⟩ := removeHamzaL_mem _ c hc3
      rcases foldAlefL_mem _ c hc2 with h627 | ⟨hc1, hvar⟩
      · simp [isNormTrigger, isArabicDiacritic, isAlefVariant, h627]
      · have hdia := (stripDiacriticsL_mem _ c hc1).2
        simp [isNormTrigger, hdia, hvar, h621, h649, h629]

theorem stageG_id (l : List Char) (h : ∀ c ∈ l, isNormTrigger c = false) :
    foldTehL (foldYehL (removeHamzaL (foldAlefL (stripDiacriticsL l)))) = l := by
  have hfacts : ∀ c ∈ l, isArabicDiacritic c = false ∧ isAlefVariant c = false ∧
      c.toNat ≠ 0x621 ∧ c.toNat ≠ 0x649 ∧ c.toNat ≠ 0x629 := by
    intro c hc
    have h' := h c hc
    simp only [isNormTrigger, Bool.or_eq_false_iff, decide_eq_false_iff_not] at h'
    obtain ⟨⟨⟨⟨h1, h2⟩, h3⟩, h4⟩, h5⟩ := h'
    exact ⟨h1, h2, h3, h4, h5⟩
  have h1 : stripDiacriticsL l = l :=
    List.filter_eq_self.2 (fun c hc => by rw [(hfacts c hc).1]; rfl)
  rw [h1]
  have h2 : foldAlefL l = l := by
    unfold foldAlefL
    refine (List.map_congr_left ?_).trans (List.map_id l)
    intro c hc
    simp [(hfacts c hc).2.1]
  rw [h2]
  have h3 : removeHamzaL l = l :=
    List.filter_eq_self.2 (fun c hc => by simp [(hfacts c hc).2.2.1])
  rw [h3]
  have h4 : foldYehL l = l := by
    unfold foldYehL
    refine (List.map_congr_left ?_).trans (List.map_id l)
    intro c hc
    simp [(hfacts c hc).2.2.2.1]
  rw [h4]
  unfold foldTehL
  refine (List.map_congr_left ?_).trans (List.map_id l)
  intro c hc
  simp [(hfacts c hc).2.2.2.2]

theorem collapseWsL_no_trigger (l : List Char) (h : ∀ c ∈ l, isNormTrigger c = false) :
    ∀ c ∈ collapseWsL l, isNormTrigger c = false := by
  intro c hc
  rcases collapseWsL_mem l.length l le_rfl c hc with h' | h'
  · rw [h']; decide
  · exact h c h'

theorem trimL_no_trigger (l : List Char) (h : ∀ c ∈ l, isNormTrigger c = false) :
    ∀ c ∈ trimL l, isNormTrigger c = false :=
  fun c hc => h c (trimL_mem l c hc)

/-- **C9.** The Arabic text normalizer is idempotent: for every string
`x`, `normalizeArabicText (normalizeArabicText x) = normalizeArabicText x`. -/
theorem claim_C9 (s : String) :
    normalizeArabicText (normalizeArabicText s) = normalizeArabicText s := by
  unfold normalizeArabicText
  show String.mk (trimL (collapseWsL (foldTehL (foldYehL (removeHamzaL (foldAlefL
      (stripDiacriticsL (trimL (collapseWsL (foldTehL (foldYehL (removeHamzaL
        (foldAlefL (stripDiacriticsL s.data))))))))))))) ) =
    String.mk (trimL (collapseWsL (foldTehL (foldYehL (removeHamzaL (foldAlefL
      (stripDiacriticsL s.data)))))))
  have htf : ∀ c ∈ trimL (collapseWsL (foldTehL (foldYehL (removeHamzaL (foldAlefL
      (stripDiacriticsL s.data)))))), isNormTrigger c = false :=
    trimL_no_trigger _ (collapseWsL_no_trigger _ (stageG_no_trigger s.data))
  rw [stageG_id _ htf, trimCollapse_idem]
